import Mathlib

/-!
Horspool string matcher: a shallow embedding of `String-Matcher/main.cpp`.

The C++ program decides, for a pattern and each whitespace-separated text of a file,
whether the pattern occurs in the text, using Horspool's bad-character shift table
over the 52 letters `a-z`, `A-Z`.

Modelling conventions.

* A `std::string` is the list of its character codes (`char` promoted to `int`, as the
  comparisons and the index arithmetic of the source do).
* The `int` variables `m`, `n`, `i`, `j`, `k` and the table entries are `Int`, which
  has no 32-bit range.  The embedding is therefore the code on the strings that keep every
  `int` of the code in range, where the conversions of lines 14-15 leave the lengths
  unchanged and the additions of lines 103/105 do not overflow: `m ≤ 2147483647` for
  the shift table and the pattern check, `n ≤ 2147483647` for the text check, and
  `m + n ≤ 2147483647` for the scan, whose cursor is never moved beyond `n - 1 + m`.
  Each theorem whose statement depends on the width of `int` has the bound it needs as
  a hypothesis.
* An array or string access outside its bounds is undefined behaviour in C++; the
  embedding makes it the explicit fault `Fault.outOfBounds`.
* Counted `for` loops whose bound is fixed are recursions on the number of iterations
  done.  The two `while` loops take a fuel argument that counts loop-body executions; a
  loop that still wants to run with no fuel left ends in `Fault.outOfFuel`.
* Console output is a list of `Event`s, in the order the lines are printed; opening a
  file is recorded in the same trace.
-/

namespace StringMatcher

/-- A `std::string`: its character codes. -/
abbrev Str := List Int

/-- The two ways an execution of the embedding fails to return a value. -/
inductive Fault where
  | outOfBounds
  | outOfFuel
  deriving DecidableEq, Repr

/-- The result of a call that may fault. -/
inductive Res (α : Type) where
  | ok (a : α)
  | fault (f : Fault)
  deriving DecidableEq, Repr

/-- What the program prints, line by line, and which files it opens. -/
inductive Event where
  | shiftTableLine (pattern : Str) (table : List Int) (text : Str)
  | testBanner
  | reportHeader (fileName : Str)
  | openFile (fileName : Str)
  | errorOpening (fileName : Str)
  | patternToMatch (pattern : Str)
  | numberOfTexts (count : Nat)
  | numberOfMatches (count : Nat)
  | blankLine
  | matchListHeader (pattern : Str)
  | matchLine (text : Str)
  | endOfReport
  | invalidPattern
  deriving DecidableEq, Repr

/-- The code of `s[i]`, an out-of-bounds fault when `i` is not a position of `s`. -/
def charAt (s : Str) (i : Int) : Res Int :=
  if i < 0 then .fault .outOfBounds
  else match s[i.toNat]? with
    | some c => .ok c
    | none => .fault .outOfBounds

/-- The text check, lines 22-38: `false` as soon as a character is below 65, above 122,
or strictly between 90 and 97; `true` when the loop runs to the end.  It goes over the
whole string, as the loop does for a length `n` in the range of `int`. -/
def textCheck : Str → Bool
  | [] => true
  | c :: rest =>
    if c < 65 ∨ c > 122 then false
    else if c < 97 ∧ c > 90 then false
    else textCheck rest

/-- The size of the shift table. -/
def alphabetSize : Nat := 52

/-- The table index the source computes for a character, lines 69-73 and 102-106:
`c - 39` when `c` is not in `'a'..'z'`, and `c - 97` otherwise. -/
def tableIndex (c : Int) : Int :=
  if c < 97 ∨ c > 122 then c - 39 else c - 97

/-- The read `shiftTable[idx]`. -/
def tableGet (table : List Int) (idx : Int) : Res Int :=
  if idx < 0 then .fault .outOfBounds
  else match table[idx.toNat]? with
    | some v => .ok v
    | none => .fault .outOfBounds

/-- The write `shiftTable[idx] = v`. -/
def tableSet (table : List Int) (idx : Int) (v : Int) : Res (List Int) :=
  if idx < 0 then .fault .outOfBounds
  else if idx.toNat < table.length then .ok (table.set idx.toNat v)
  else .fault .outOfBounds

/-- The table after the initialisation loop, lines 52-54. -/
def initTable (m : Int) : List Int := List.replicate alphabetSize m

/-- One execution of the body of the filling loop, lines 69-73, at position `j`. -/
def fillStep (pattern : Str) (m : Int) (table : List Int) (j : Int) : Res (List Int) :=
  match charAt pattern j with
  | .fault f => .fault f
  | .ok c => tableSet table (tableIndex c) (m - 1 - j)

/-- The table after the first `count` iterations `j = 0, ..., count - 1` of the filling
loop, lines 57-74. -/
def fillLoop (pattern : Str) (m : Int) : Nat → Res (List Int)
  | 0 => .ok (initTable m)
  | j + 1 =>
    match fillLoop pattern m j with
    | .fault f => .fault f
    | .ok table => fillStep pattern m table j

/-- The shift table of a pattern, lines 49-74: the filling loop runs for
`j = 0, ..., m - 2`.  Here `m` is the length of the pattern, which is the `int` of line
14 for a length in the range of `int`. -/
def shiftTable (pattern : Str) : Res (List Int) :=
  fillLoop pattern pattern.length ((pattern.length : Int) - 1).toNat

/-- The inner `while` of line 96, started at `k`: the value of `k` when it ends. -/
def compareLoop (pattern text : Str) (m i : Int) : Nat → Int → Res Int
  | 0, k => if k ≤ m - 1 then .fault .outOfFuel else .ok k
  | fuel + 1, k =>
    if k ≤ m - 1 then
      match charAt pattern (m - 1 - k), charAt text (i - k) with
      | .ok a, .ok b => if a = b then compareLoop pattern text m i fuel (k + 1) else .ok k
      | .fault f, _ => .fault f
      | _, .fault f => .fault f
    else .ok k

/-- The outer `while` of lines 94-109, started with the right end of the window at `i`.
The sum `i + shift` is the sum of integers; it is the `int` sum of lines 103/105 as long
as it is at most 2147483647, which `m + n ≤ 2147483647` ensures (`scanBody_spec`). -/
def scanLoop (pattern text : Str) (table : List Int) (m n : Int) : Nat → Int → Res Bool
  | 0, i => if i ≤ n - 1 then .fault .outOfFuel else .ok false
  | fuel + 1, i =>
    if i ≤ n - 1 then
      match compareLoop pattern text m i pattern.length 0 with
      | .fault f => .fault f
      | .ok k =>
        if k = m then .ok true
        else
          match charAt text i with
          | .fault f => .fault f
          | .ok c =>
            match tableGet table (tableIndex c) with
            | .fault f => .fault f
            | .ok shift => scanLoop pattern text table m n fuel (i + shift)
    else .ok false

/-- How one execution of the body of the outer `while` ends: with the `return true` of
line 100, with a new value of the cursor `i`, or with a fault. -/
inductive Step where
  | found
  | advance (i : Int)
  | fault (f : Fault)
  deriving DecidableEq, Repr

/-- One execution of the body of the outer `while`, lines 95-107, with the cursor at
`i`; `scanLoop` repeats it (`scanLoop_succ`).  The new cursor is the sum of integers
`i + shift`, see `scanLoop`. -/
def scanBody (pattern text : Str) (table : List Int) (m i : Int) : Step :=
  match compareLoop pattern text m i pattern.length 0 with
  | .fault f => .fault f
  | .ok k =>
    if k = m then .found
    else
      match charAt text i with
      | .fault f => .fault f
      | .ok c =>
        match tableGet table (tableIndex c) with
        | .fault f => .fault f
        | .ok shift => .advance (i + shift)

/-- The number of executions of the body of the outer `while` that `scanLoop` makes
from the cursor `i` with the given fuel. -/
def scanIterations (pattern text : Str) (table : List Int) (m n : Int) : Nat → Int → Nat
  | 0, _ => 0
  | fuel + 1, i =>
    if i ≤ n - 1 then
      match scanBody pattern text table m i with
      | .advance i' => 1 + scanIterations pattern text table m n fuel i'
      | _ => 1
    else 0

/-- The function `HorspoolStringMatching` with the fuel of its scan loop explicit:
the lines it prints and the value it returns.  The integers `m` and `n` are the two
lengths, which the conversions to `int` of lines 14-15 leave unchanged when they are at
most 2147483647. -/
def HorspoolStringMatchingFuel (fuel : Nat) (pattern text : Str) (isTest : Bool) :
    List Event × Res Bool :=
  let m : Int := pattern.length
  let n : Int := text.length
  if textCheck text = false then ([], .ok false)
  else
    match shiftTable pattern with
    | .fault f => ([], .fault f)
    | .ok table =>
      (if isTest then [Event.shiftTableLine pattern table text] else [],
        scanLoop pattern text table m n fuel (m - 1))

/-- The function `HorspoolStringMatching`, lines 12-110.  The scan loop gets
`n + 1` units of fuel, which it never uses up (`scan_fuel_enough`). -/
def HorspoolStringMatching (pattern text : Str) (isTest : Bool) : List Event × Res Bool :=
  HorspoolStringMatchingFuel (text.length + 1) pattern text isTest

/-- The function `matchPatternToTexts`, lines 117-139, as its loop over the texts that
are left, with the vector `matchingTexts` built so far. -/
def matchLoop (pattern : Str) (isTest : Bool) : List Str → List Str → List Event × Res (List Str)
  | [], matchingTexts => ([], .ok matchingTexts)
  | currentText :: rest, matchingTexts =>
    match HorspoolStringMatching pattern currentText isTest with
    | (out, .fault f) => (out, .fault f)
    | (out, .ok found) =>
      let r := matchLoop pattern isTest rest
        (if found then matchingTexts ++ [currentText] else matchingTexts)
      (out ++ r.1, r.2)

/-- The function `matchPatternToTexts`, lines 117-139. -/
def matchPatternToTexts (pattern : Str) (allTexts : List Str) (isTest : Bool) :
    List Event × Res (List Str) :=
  matchLoop pattern isTest allTexts []

/-- The files the program can see: the texts of a file, in order, or `none` for a file
that cannot be opened. -/
abbrev Files := Str → Option (List Str)

/-- The function `textsFromFile`, lines 145-173. -/
def textsFromFile (files : Files) (fileName : Str) : List Event × List Str :=
  match files fileName with
  | none => ([Event.openFile fileName, Event.errorOpening fileName], [])
  | some texts => ([Event.openFile fileName], texts)

/-- The function `report`, lines 180-220. -/
def report (files : Files) (pattern fileName : Str) (isTest : Bool) : List Event × Res Unit :=
  let banner := if isTest then [Event.testBanner] else []
  let header := [Event.reportHeader fileName]
  let loaded := textsFromFile files fileName
  let allTexts := loaded.2
  match matchPatternToTexts pattern allTexts isTest with
  | (out, .fault f) => (banner ++ header ++ loaded.1 ++ out, .fault f)
  | (out, .ok matchingTexts) =>
    (banner ++ header ++ loaded.1 ++ out ++
      [Event.patternToMatch pattern, Event.numberOfTexts allTexts.length,
        Event.numberOfMatches matchingTexts.length, Event.blankLine,
        Event.matchListHeader pattern] ++
      matchingTexts.map Event.matchLine ++ [Event.endOfReport, Event.blankLine], .ok ())

/-- The pattern check of `run`, lines 237-258, from the current value of
`isInvalidPattern` over the characters that are left: `true` when it reaches the
`std::exit(0)` of line 256, `false` when the loop runs to the end.  It goes over the
whole pattern, as the loop with its `int i` does for a length in the range of `int`. -/
def patternCheckExits : Bool → Str → Bool
  | _, [] => false
  | isInvalidPattern, c :: rest =>
    let flag1 := if c < 65 ∨ c > 122 then true else isInvalidPattern
    let flag2 := if c < 97 ∧ c > 90 then true else flag1
    if flag2 then true else patternCheckExits flag2 rest

/-- How a call of `run` ends: it returns, or the process exits with a code. -/
inductive RunEnd where
  | returned
  | exited (code : Int)
  deriving DecidableEq, Repr

/-- The loop of `run` over the file names, lines 263-267. -/
def reportLoop (files : Files) (pattern : Str) (isTest : Bool) : List Str → List Event × Res Unit
  | [] => ([], .ok ())
  | currentFile :: rest =>
    match report files pattern currentFile isTest with
    | (out, .fault f) => (out, .fault f)
    | (out, .ok ()) =>
      let r := reportLoop files pattern isTest rest
      (out ++ r.1, r.2)

/-- The function `run`, lines 231-268. -/
def run (files : Files) (pattern : Str) (fileNames : List Str) (isTest : Bool) :
    List Event × Res RunEnd :=
  if patternCheckExits false pattern then ([Event.invalidPattern], .ok (.exited 0))
  else
    match reportLoop files pattern isTest fileNames with
    | (out, .fault f) => (out, .fault f)
    | (out, .ok ()) => (out, .ok .returned)

/-- The string of a Lean string literal, for writing examples. -/
def str (s : String) : Str := s.data.map fun c => (c.toNat : Int)

/-- A letter: a character code in `A-Z` (65..90) or `a-z` (97..122). -/
def isLetter (c : Int) : Prop := (65 ≤ c ∧ c ≤ 90) ∨ (97 ≤ c ∧ c ≤ 122)

instance : DecidablePred isLetter := fun c => by unfold isLetter; infer_instance

/-- A string that consists only of letters. -/
def onlyLetters (s : Str) : Prop := ∀ c ∈ s, isLetter c

instance : DecidablePred onlyLetters := fun s => by unfold onlyLetters; infer_instance

/-- The pattern `pattern` occurs in `text` at position `s`: it fits, and
`text[s + j] = pattern[j]` for every `j < m`. -/
def occursAt (pattern text : Str) (s : Nat) : Prop :=
  s + pattern.length ≤ text.length ∧ ∀ j, j < pattern.length → text[s + j]? = pattern[j]?

/-- What the filling loop has established after its first `k` iterations: the table has
52 entries, and the entry at `idx` is `m` when no position `j < k` of the pattern has
table index `idx`, and `m - 1 - j` for the last such position `j` otherwise. -/
def TableAfter (pattern : Str) (m : Int) (k : Nat) (table : List Int) : Prop :=
  table.length = 52 ∧ ∀ idx : Nat, idx < 52 →
    ((∀ j c, j < k → pattern[j]? = some c → tableIndex c ≠ (idx : Int)) ∧
        table[idx]? = some m) ∨
    (∃ j c, j < k ∧ pattern[j]? = some c ∧ tableIndex c = (idx : Int) ∧
        table[idx]? = some (m - 1 - (j : Int)) ∧
        ∀ j' c', j < j' → j' < k → pattern[j']? = some c' → tableIndex c' ≠ (idx : Int))

/-- The file names of the report headers among the lines printed, in order. -/
def reportHeaders (out : List Event) : List Str :=
  out.filterMap fun e =>
    match e with
    | .reportHeader fileName => some fileName
    | _ => none

/-! ## Characters, validation and the table index -/

theorem charAt_ofNat {s : Str} {i : Nat} {c : Int} (h : s[i]? = some c) :
    charAt s (i : Int) = .ok c := by
  have h0 : ¬ ((i : Int) < 0) := by omega
  simp [charAt, h0, h]

theorem charAt_eq_ok {s : Str} {i c : Int} (h : charAt s i = .ok c) :
    0 ≤ i ∧ s[i.toNat]? = some c := by
  unfold charAt at h
  split at h
  · cases h
  · split at h
    · next v hv =>
      cases h
      exact ⟨by omega, hv⟩
    · cases h

theorem textCheck_iff (s : Str) : textCheck s = true ↔ onlyLetters s := by
  induction s with
  | nil => simp [textCheck, onlyLetters]
  | cons c rest ih =>
    have hsplit : onlyLetters (c :: rest) ↔ isLetter c ∧ onlyLetters rest := by
      simp [onlyLetters]
    have hstep : textCheck (c :: rest) =
        if c < 65 ∨ c > 122 then false
        else if c < 97 ∧ c > 90 then false else textCheck rest := rfl
    rw [hsplit, ← ih, hstep]
    by_cases h1 : c < 65 ∨ c > 122
    · have : ¬ isLetter c := by unfold isLetter; omega
      simp [h1, this]
    · by_cases h2 : c < 97 ∧ c > 90
      · have : ¬ isLetter c := by unfold isLetter; omega
        rw [if_neg h1, if_pos h2]
        simp [this]
      · have : isLetter c := by unfold isLetter; omega
        rw [if_neg h1, if_neg h2]
        simp [this]

theorem textCheck_false_iff (s : Str) : textCheck s = false ↔ ∃ c ∈ s, ¬ isLetter c := by
  have h := textCheck_iff s
  constructor
  · intro hf
    by_contra hne
    have : onlyLetters s := by
      intro c hc
      by_contra hl
      exact hne ⟨c, hc, hl⟩
    rw [← h, hf] at this
    cases this
  · rintro ⟨c, hc, hl⟩
    cases hb : textCheck s with
    | false => rfl
    | true => exact absurd (h.mp hb c hc) hl

theorem tableIndex_lower {c : Int} (h : 97 ≤ c ∧ c ≤ 122) : tableIndex c = c - 97 := by
  unfold tableIndex
  rw [if_neg (by omega)]

theorem tableIndex_upper {c : Int} (h : 65 ≤ c ∧ c ≤ 90) : tableIndex c = c - 39 := by
  unfold tableIndex
  rw [if_pos (by omega)]

theorem tableIndex_range {c : Int} (h : isLetter c) :
    0 ≤ tableIndex c ∧ tableIndex c < 52 := by
  rcases h with h | h
  · rw [tableIndex_upper h]; omega
  · rw [tableIndex_lower h]; omega

theorem tableIndex_inj {c d : Int} (hc : isLetter c) (hd : isLetter d)
    (h : tableIndex c = tableIndex d) : c = d := by
  rcases hc with hc | hc <;> rcases hd with hd | hd
  · rw [tableIndex_upper hc, tableIndex_upper hd] at h; omega
  · rw [tableIndex_upper hc, tableIndex_lower hd] at h; omega
  · rw [tableIndex_lower hc, tableIndex_upper hd] at h; omega
  · rw [tableIndex_lower hc, tableIndex_lower hd] at h; omega

theorem onlyLetters_getElem {s : Str} (hs : onlyLetters s) {i : Nat} {c : Int}
    (h : s[i]? = some c) : isLetter c := by
  apply hs
  rw [List.getElem?_eq_some] at h
  obtain ⟨hi, rfl⟩ := h
  exact List.getElem_mem _

/-! ## The shift table -/

theorem tableSet_eq_ok {table table' : List Int} {idx v : Int}
    (h : tableSet table idx v = .ok table') :
    0 ≤ idx ∧ idx.toNat < table.length ∧ table' = table.set idx.toNat v := by
  unfold tableSet at h
  split at h
  · cases h
  · split at h
    · next h0 h1 =>
      cases h
      exact ⟨by omega, h1, rfl⟩
    · cases h

theorem tableGet_eq_ok {table : List Int} {idx v : Int} (h : tableGet table idx = .ok v) :
    0 ≤ idx ∧ table[idx.toNat]? = some v := by
  unfold tableGet at h
  split at h
  · cases h
  · split at h
    · next w hw =>
      cases h
      exact ⟨by omega, hw⟩
    · cases h

theorem tableGet_ofNat {table : List Int} {idx : Nat} {v : Int} (h : table[idx]? = some v) :
    tableGet table (idx : Int) = .ok v := by
  have h0 : ¬ ((idx : Int) < 0) := by omega
  simp [tableGet, h0, h]

theorem fillLoop_succ_ok {pattern : Str} {m : Int} {k : Nat} {table : List Int}
    (h : fillLoop pattern m (k + 1) = .ok table) :
    ∃ prev c, fillLoop pattern m k = .ok prev ∧ pattern[k]? = some c ∧
      0 ≤ tableIndex c ∧ (tableIndex c).toNat < prev.length ∧
      table = prev.set (tableIndex c).toNat (m - 1 - (k : Int)) := by
  rw [fillLoop] at h
  cases hp : fillLoop pattern m k with
  | fault f => rw [hp] at h; cases h
  | ok prev =>
    rw [hp] at h
    simp only [fillStep] at h
    cases hc : charAt pattern (k : Int) with
    | fault f => rw [hc] at h; cases h
    | ok c =>
      rw [hc] at h
      simp only at h
      obtain ⟨h0, h1, h2⟩ := tableSet_eq_ok h
      have hk := (charAt_eq_ok hc).2
      rw [Int.toNat_ofNat] at hk
      exact ⟨prev, c, rfl, hk, h0, h1, h2⟩

theorem fillLoop_spec (pattern : Str) (m : Int) :
    ∀ (k : Nat) (table : List Int), fillLoop pattern m k = .ok table →
      TableAfter pattern m k table := by
  intro k
  induction k with
  | zero =>
    intro table h
    rw [fillLoop] at h
    cases h
    refine ⟨List.length_replicate _ _, fun idx hidx => Or.inl ⟨?_, ?_⟩⟩
    · intro j c hj
      omega
    · show (List.replicate 52 m)[idx]? = some m
      rw [List.getElem?_replicate, if_pos hidx]
  | succ k ih =>
    intro table h
    obtain ⟨prev, c, hprev, hc, h0, h1, rfl⟩ := fillLoop_succ_ok h
    obtain ⟨hlen, hent⟩ := ih prev hprev
    refine ⟨by simpa using hlen, fun idx hidx => ?_⟩
    by_cases hi : (tableIndex c).toNat = idx
    · right
      refine ⟨k, c, by omega, hc, by omega, ?_, ?_⟩
      · rw [hi, List.getElem?_set_self (by omega)]
      · intro j' c' h1' h2'
        omega
    · rcases hent idx hidx with ⟨hno, hv⟩ | ⟨j, d, hj, hd, hdi, hv, hlast⟩
      · left
        refine ⟨?_, ?_⟩
        · intro j c' hj hc'
          by_cases hjk : j = k
          · subst hjk
            rw [hc] at hc'
            cases hc'
            omega
          · exact hno j c' (by omega) hc'
        · rw [List.getElem?_set_ne hi]
          exact hv
      · right
        refine ⟨j, d, by omega, hd, hdi, ?_, ?_⟩
        · rw [List.getElem?_set_ne hi]
          exact hv
        · intro j' c' hjj hj' hc'
          by_cases hjk : j' = k
          · subst hjk
            rw [hc] at hc'
            cases hc'
            omega
          · exact hlast j' c' hjj (by omega) hc'

theorem fillLoop_ok (pattern : Str) (m : Int) (hp : onlyLetters pattern) :
    ∀ k : Nat, k ≤ pattern.length → ∃ table, fillLoop pattern m k = .ok table := by
  intro k
  induction k with
  | zero => intro _; exact ⟨_, rfl⟩
  | succ k ih =>
    intro hk
    obtain ⟨prev, hprev⟩ := ih (by omega)
    have hlen := (fillLoop_spec pattern m k prev hprev).1
    have hk' : k < pattern.length := by omega
    have hc : pattern[k]? = some pattern[k] := List.getElem?_eq_getElem hk'
    have hr := tableIndex_range (onlyLetters_getElem hp hc)
    have h0 : ¬ (tableIndex pattern[k] < 0) := by omega
    have h1 : (tableIndex pattern[k]).toNat < prev.length := by omega
    refine ⟨prev.set (tableIndex pattern[k]).toNat (m - 1 - (k : Int)), ?_⟩
    rw [fillLoop, hprev]
    simp only [fillStep, charAt_ofNat hc, tableSet, if_neg h0, if_pos h1]

theorem shiftTable_ok {pattern : Str} (hp : onlyLetters pattern) :
    ∃ table, shiftTable pattern = .ok table :=
  fillLoop_ok pattern pattern.length hp _ (by omega)

theorem shiftTable_spec {pattern : Str} {table : List Int}
    (h : shiftTable pattern = .ok table) :
    TableAfter pattern pattern.length (pattern.length - 1) table := by
  have := fillLoop_spec pattern pattern.length _ table h
  have e : ((pattern.length : Int) - 1).toNat = pattern.length - 1 := by omega
  rwa [e] at this

/-- Every entry of a shift table lies in `[1, m]`, for a pattern of length `m ≥ 1`. -/
theorem TableAfter.entry_bounds {pattern : Str} {table : List Int}
    (h : TableAfter pattern pattern.length (pattern.length - 1) table)
    (hm : 1 ≤ pattern.length) {idx : Nat} {v : Int} (hv : table[idx]? = some v) :
    1 ≤ v ∧ v ≤ pattern.length := by
  have hidx : idx < 52 := by
    have := (List.getElem?_eq_some.mp hv).1
    rw [h.1] at this
    exact this
  rcases h.2 idx hidx with ⟨_, hv'⟩ | ⟨j, d, hj, _, _, hv', _⟩
  · rw [hv] at hv'
    cases hv'
    omega
  · rw [hv] at hv'
    cases hv'
    omega

/-- The bad-character bound: the entry for a character that stands at a position
`j ≤ m - 2` of the pattern is at most `m - 1 - j`. -/
theorem TableAfter.entry_le {pattern : Str} {table : List Int}
    (h : TableAfter pattern pattern.length (pattern.length - 1) table)
    {j : Nat} {c v : Int} (hj : j + 1 < pattern.length) (hc : pattern[j]? = some c)
    (hr : 0 ≤ tableIndex c ∧ tableIndex c < 52)
    (hv : table[(tableIndex c).toNat]? = some v) :
    v ≤ (pattern.length : Int) - 1 - j := by
  have hidx : (tableIndex c).toNat < 52 := by omega
  have hcast : (((tableIndex c).toNat : Nat) : Int) = tableIndex c := by omega
  rcases h.2 _ hidx with ⟨hno, _⟩ | ⟨j0, d, hj0, hd, hdi, hv', hlast⟩
  · exact absurd hcast.symm (hno j c (by omega) hc)
  · rw [hv] at hv'
    cases hv'
    by_cases hle : j ≤ j0
    · omega
    · exact absurd hcast.symm (hlast j c (by omega) (by omega) hc)

/-! ## The two loops of the scan -/

theorem charAt_of_getElem {s : Str} {i c : Int} (h0 : 0 ≤ i) (h : s[i.toNat]? = some c) :
    charAt s i = .ok c := by
  have h0' : ¬ (i < 0) := by omega
  simp [charAt, h0', h]

theorem tableGet_of_getElem {table : List Int} {idx v : Int} (h0 : 0 ≤ idx)
    (h : table[idx.toNat]? = some v) : tableGet table idx = .ok v := by
  have h0' : ¬ (idx < 0) := by omega
  simp [tableGet, h0', h]

/-- The inner loop in a window that lies inside the text: it ends without a fault at
some `k' ≤ m`, the `k'` characters at the right of the window match, and the next
one, if there is one, does not. -/
theorem compareLoop_spec (pattern text : Str) (s : Nat)
    (hs : s + pattern.length ≤ text.length) :
    ∀ (fuel k : Nat), k ≤ pattern.length → pattern.length ≤ fuel + k →
      ∃ k' : Nat,
        compareLoop pattern text pattern.length ((s : Int) + pattern.length - 1) fuel (k : Int)
          = .ok (k' : Int) ∧
        k ≤ k' ∧ k' ≤ pattern.length ∧
        (∀ q, k ≤ q → q < k' →
          text[s + pattern.length - 1 - q]? = pattern[pattern.length - 1 - q]?) ∧
        (k' < pattern.length →
          text[s + pattern.length - 1 - k']? ≠ pattern[pattern.length - 1 - k']?) := by
  intro fuel
  induction fuel with
  | zero =>
    intro k hk hf
    refine ⟨k, ?_, le_refl _, hk, fun q h1 h2 => by omega, fun h => by omega⟩
    rw [compareLoop, if_neg (by omega)]
  | succ fuel ih =>
    intro k hk hf
    by_cases hlt : k < pattern.length
    · obtain ⟨a, hpi⟩ : ∃ a, pattern[pattern.length - 1 - k]? = some a :=
        ⟨_, List.getElem?_eq_getElem (by omega)⟩
      obtain ⟨b, hti⟩ : ∃ b, text[s + pattern.length - 1 - k]? = some b :=
        ⟨_, List.getElem?_eq_getElem (by omega)⟩
      have e1 : ((pattern.length : Int) - 1 - (k : Int)).toNat = pattern.length - 1 - k := by
        omega
      have e2 : ((s : Int) + pattern.length - 1 - (k : Int)).toNat
          = s + pattern.length - 1 - k := by omega
      have hcp : charAt pattern ((pattern.length : Int) - 1 - (k : Int)) = .ok a :=
        charAt_of_getElem (by omega) (by rw [e1]; exact hpi)
      have hct : charAt text ((s : Int) + pattern.length - 1 - (k : Int)) = .ok b :=
        charAt_of_getElem (by omega) (by rw [e2]; exact hti)
      rw [compareLoop, if_pos (by omega), hcp, hct]
      by_cases heq : a = b
      · obtain ⟨k', hres, h1, h2, h3, h4⟩ := ih (k + 1) (by omega) (by omega)
        refine ⟨k', ?_, by omega, h2, ?_, h4⟩
        · simp only [heq, if_true]
          rw [← hres]
          rfl
        · intro q hq1 hq2
          by_cases hqk : q = k
          · subst hqk
            rw [hpi, hti, heq]
          · exact h3 q (by omega) hq2
      · refine ⟨k, ?_, le_refl _, hk, fun q h1 h2 => by omega, fun _ => ?_⟩
        · simp only [heq, if_false]
        · rw [hpi, hti]
          intro h
          exact heq (Option.some.inj h).symm
    · refine ⟨k, ?_, le_refl _, hk, fun q h1 h2 => by omega, fun h => by omega⟩
      rw [compareLoop, if_neg (by omega)]

/-- The inner loop reaches `k = m` exactly when the pattern occurs in the window. -/
theorem compareLoop_full (pattern text : Str) (s : Nat)
    (hs : s + pattern.length ≤ text.length) :
    ∃ k' : Nat,
      compareLoop pattern text pattern.length ((s : Int) + pattern.length - 1)
        pattern.length 0 = .ok (k' : Int) ∧
      (k' = pattern.length ↔ occursAt pattern text s) := by
  obtain ⟨k', hres, _, hle, hmatch, hmis⟩ :=
    compareLoop_spec pattern text s hs pattern.length 0 (by omega) (by omega)
  refine ⟨k', hres, ?_, ?_⟩
  · intro hk
    refine ⟨hs, fun j hj => ?_⟩
    have := hmatch (pattern.length - 1 - j) (by omega) (by omega)
    have e1 : s + pattern.length - 1 - (pattern.length - 1 - j) = s + j := by omega
    have e2 : pattern.length - 1 - (pattern.length - 1 - j) = j := by omega
    rwa [e1, e2] at this
  · intro hocc
    by_contra hne
    have hlt : k' < pattern.length := by omega
    apply hmis hlt
    have := hocc.2 (pattern.length - 1 - k') (by omega)
    have e1 : s + (pattern.length - 1 - k') = s + pattern.length - 1 - k' := by omega
    rwa [e1] at this

/-- The scan loop, entered with the window at `s` when the pattern occurs at no earlier
position and with fuel for every window that is left: it returns `true` when the pattern
occurs in the text and `false` when it does not. -/
theorem scanLoop_spec {pattern text table : List Int} (hm : 1 ≤ pattern.length)
    (ht : onlyLetters text)
    (htab : TableAfter pattern pattern.length (pattern.length - 1) table) :
    ∀ (fuel s : Nat), text.length + 1 ≤ fuel + (s + pattern.length) →
      (∀ s', s' < s → ¬ occursAt pattern text s') →
      ((∃ s', occursAt pattern text s') →
        scanLoop pattern text table pattern.length text.length fuel
          ((s : Int) + pattern.length - 1) = .ok true) ∧
      ((¬ ∃ s', occursAt pattern text s') →
        scanLoop pattern text table pattern.length text.length fuel
          ((s : Int) + pattern.length - 1) = .ok false) := by
  intro fuel
  induction fuel with
  | zero =>
    intro s hf hbefore
    have hout : ¬ ((s : Int) + pattern.length - 1 ≤ (text.length : Int) - 1) := by omega
    refine ⟨?_, ?_⟩
    · rintro ⟨s', hocc⟩
      exact absurd hocc (hbefore s' (by have := hocc.1; omega))
    · intro _
      rw [scanLoop, if_neg hout]
  | succ fuel ih =>
    intro s hf hbefore
    by_cases hin : s + pattern.length ≤ text.length
    · have hcond : (s : Int) + pattern.length - 1 ≤ (text.length : Int) - 1 := by omega
      obtain ⟨k', hcmp, hfull⟩ := compareLoop_full pattern text s hin
      by_cases hk : k' = pattern.length
      · have hocc := hfull.mp hk
        refine ⟨fun _ => ?_, fun hno => absurd ⟨s, hocc⟩ hno⟩
        rw [scanLoop, if_pos hcond, hcmp]
        simp [hk]
      · have hnot : ¬ occursAt pattern text s := fun h => hk (hfull.mpr h)
        obtain ⟨c, hc⟩ : ∃ c, text[s + pattern.length - 1]? = some c :=
          ⟨_, List.getElem?_eq_getElem (by omega)⟩
        have e1 : ((s : Int) + pattern.length - 1).toNat = s + pattern.length - 1 := by omega
        have hchar : charAt text ((s : Int) + pattern.length - 1) = .ok c :=
          charAt_of_getElem (by omega) (by rw [e1]; exact hc)
        have hr := tableIndex_range (onlyLetters_getElem ht hc)
        obtain ⟨d, hd⟩ : ∃ d, table[(tableIndex c).toNat]? = some d :=
          ⟨_, List.getElem?_eq_getElem (by rw [htab.1]; omega)⟩
        have hget : tableGet table (tableIndex c) = .ok d := tableGet_of_getElem hr.1 hd
        have hdb := htab.entry_bounds hm hd
        have hstep : scanLoop pattern text table pattern.length text.length (fuel + 1)
            ((s : Int) + pattern.length - 1)
            = scanLoop pattern text table pattern.length text.length fuel
              (((s + d.toNat : Nat) : Int) + pattern.length - 1) := by
          have hk' : ¬ ((k' : Int) = (pattern.length : Int)) := by omega
          have e2 : (s : Int) + pattern.length - 1 + d
              = ((s + d.toNat : Nat) : Int) + pattern.length - 1 := by
            push_cast
            omega
          rw [scanLoop, if_pos hcond, hcmp]
          simp only [hk', if_false, hchar, hget]
          rw [e2]
        have hbefore' : ∀ s', s' < s + d.toNat → ¬ occursAt pattern text s' := by
          intro s' hs' hocc
          by_cases h1 : s' < s
          · exact hbefore s' h1 hocc
          · by_cases h2 : s' = s
            · subst h2
              exact hnot hocc
            · have hj := hocc.2 (s + pattern.length - 1 - s') (by omega)
              have e3 : s' + (s + pattern.length - 1 - s') = s + pattern.length - 1 := by
                omega
              rw [e3, hc] at hj
              have := htab.entry_le (j := s + pattern.length - 1 - s') (by omega) hj.symm
                ⟨hr.1, hr.2⟩ hd
              omega
        rw [hstep]
        exact ih (s + d.toNat) (by omega) hbefore'
    · have hout : ¬ ((s : Int) + pattern.length - 1 ≤ (text.length : Int) - 1) := by omega
      refine ⟨?_, ?_⟩
      · rintro ⟨s', hocc⟩
        exact absurd hocc (hbefore s' (by have := hocc.1; omega))
      · intro _
        rw [scanLoop, if_neg hout]

/-- The scan loop for the empty pattern returns `true` in its first iteration. -/
theorem scanLoop_empty (text table : List Int) (fuel : Nat) :
    scanLoop [] text table 0 text.length (fuel + 1) (-1) = .ok true := by
  have hcond : (-1 : Int) ≤ (text.length : Int) - 1 := by omega
  rw [scanLoop, if_pos hcond]
  simp [compareLoop]

/-! ## Occurrences -/

theorem occurs_iff_isInfix (pattern text : Str) :
    (∃ s, occursAt pattern text s) ↔ pattern <:+: text := by
  constructor
  · rintro ⟨s, hlen, h⟩
    have hEq : (text.drop s).take pattern.length = pattern := by
      apply List.ext_getElem?
      intro j
      by_cases hj : j < pattern.length
      · rw [List.getElem?_take_of_lt hj, List.getElem?_drop]
        exact h j hj
      · have h1 : ((text.drop s).take pattern.length)[j]? = none := by
          rw [List.getElem?_eq_none_iff]
          simp only [List.length_take, List.length_drop]
          omega
        have h2 : pattern[j]? = none := by
          rw [List.getElem?_eq_none_iff]
          omega
        rw [h1, h2]
    rw [← hEq]
    exact (List.take_prefix _ _).isInfix.trans (List.drop_suffix _ _).isInfix
  · rintro ⟨a, b, rfl⟩
    refine ⟨a.length, by simp only [List.length_append]; omega, fun j hj => ?_⟩
    rw [List.append_assoc, List.getElem?_append_right (by omega)]
    have e : a.length + j - a.length = j := by omega
    rw [e, List.getElem?_append_left hj]

/-! ## The function `HorspoolStringMatching` -/

theorem textCheck_ne_false {text : Str} (ht : onlyLetters text) : ¬ (textCheck text = false) := by
  rw [(textCheck_iff text).mpr ht]
  decide

/-- The value `HorspoolStringMatching` returns on a text of letters, once the shift
table is built: whether the pattern occurs in the text.  Any fuel from `n + 1` on
gives it. -/
theorem horspool_value {pattern text table : List Int} (isTest : Bool) (fuel : Nat)
    (hf : text.length + 1 ≤ fuel) (ht : onlyLetters text)
    (htab : shiftTable pattern = .ok table) :
    ((∃ s, occursAt pattern text s) →
      (HorspoolStringMatchingFuel fuel pattern text isTest).2 = .ok true) ∧
    ((¬ ∃ s, occursAt pattern text s) →
      (HorspoolStringMatchingFuel fuel pattern text isTest).2 = .ok false) := by
  have hres : (HorspoolStringMatchingFuel fuel pattern text isTest).2
      = scanLoop pattern text table pattern.length text.length fuel
          ((pattern.length : Int) - 1) := by
    simp only [HorspoolStringMatchingFuel, if_neg (textCheck_ne_false ht), htab]
  rw [hres]
  by_cases hm : 1 ≤ pattern.length
  · have := scanLoop_spec hm ht (shiftTable_spec htab) fuel 0 (by omega)
      (fun s' hs' => by omega)
    have e : ((0 : Nat) : Int) + (pattern.length : Int) - 1 = (pattern.length : Int) - 1 := by
      omega
    rwa [e] at this
  · have hnil : pattern = [] := List.length_eq_zero.mp (by omega)
    subst hnil
    obtain ⟨f, rfl⟩ : ∃ f, fuel = f + 1 := ⟨fuel - 1, by omega⟩
    refine ⟨fun _ => scanLoop_empty text table f, fun hno => ?_⟩
    exact absurd ⟨0, by simp [occursAt]⟩ hno

/-- The value of `HorspoolStringMatching` for a pattern of length `m ≥ 1`, with fuel
for `n - m + 1` executions of the loop body only. -/
theorem horspool_value_tight {pattern text table : List Int} (isTest : Bool) (fuel : Nat)
    (hm : 1 ≤ pattern.length) (hf : text.length + 1 ≤ fuel + pattern.length)
    (ht : onlyLetters text) (htab : shiftTable pattern = .ok table) :
    ((∃ s, occursAt pattern text s) →
      (HorspoolStringMatchingFuel fuel pattern text isTest).2 = .ok true) ∧
    ((¬ ∃ s, occursAt pattern text s) →
      (HorspoolStringMatchingFuel fuel pattern text isTest).2 = .ok false) := by
  have hres : (HorspoolStringMatchingFuel fuel pattern text isTest).2
      = scanLoop pattern text table pattern.length text.length fuel
          ((pattern.length : Int) - 1) := by
    simp only [HorspoolStringMatchingFuel, if_neg (textCheck_ne_false ht), htab]
  rw [hres]
  have := scanLoop_spec hm ht (shiftTable_spec htab) fuel 0 (by omega)
    (fun s' hs' => by omega)
  have e : ((0 : Nat) : Int) + (pattern.length : Int) - 1 = (pattern.length : Int) - 1 := by
    omega
  rwa [e] at this

/-- The fuel `n + 1` that `HorspoolStringMatching` gives its scan loop is enough:
every larger amount gives the same output and the same result. -/
theorem scan_fuel_enough (pattern text : Str) (isTest : Bool) (fuel : Nat)
    (hf : text.length + 1 ≤ fuel) :
    HorspoolStringMatchingFuel fuel pattern text isTest
      = HorspoolStringMatching pattern text isTest := by
  have hfst : ∀ f, (HorspoolStringMatchingFuel f pattern text isTest).1
      = (HorspoolStringMatchingFuel (text.length + 1) pattern text isTest).1 := by
    intro f
    unfold HorspoolStringMatchingFuel
    split
    · rfl
    · split <;> rfl
  have hsnd : (HorspoolStringMatchingFuel fuel pattern text isTest).2
      = (HorspoolStringMatchingFuel (text.length + 1) pattern text isTest).2 := by
    by_cases ht : onlyLetters text
    · cases htab : shiftTable pattern with
      | fault f =>
        simp only [HorspoolStringMatchingFuel, if_neg (textCheck_ne_false ht), htab]
      | ok table =>
        have h1 := horspool_value isTest fuel hf ht htab
        have h2 := horspool_value isTest (text.length + 1) (le_refl _) ht htab
        by_cases hocc : ∃ s, occursAt pattern text s
        · rw [h1.1 hocc, h2.1 hocc]
        · rw [h1.2 hocc, h2.2 hocc]
    · have hc : textCheck text = false := by
        cases hb : textCheck text with
        | false => rfl
        | true => exact absurd ((textCheck_iff text).mp hb) ht
      simp only [HorspoolStringMatchingFuel, hc, if_true]
  unfold HorspoolStringMatching
  exact Prod.ext (hfst fuel) hsnd

/-- With a pattern of letters `HorspoolStringMatching` returns a boolean: it neither
leaves the bounds of an array nor runs out of fuel. -/
theorem horspool_returns {pattern : Str} (hp : onlyLetters pattern) (text : Str)
    (isTest : Bool) : ∃ b, (HorspoolStringMatching pattern text isTest).2 = .ok b := by
  by_cases ht : onlyLetters text
  · obtain ⟨table, htab⟩ := shiftTable_ok hp
    have h := horspool_value isTest (text.length + 1) (le_refl _) ht htab
    by_cases hocc : ∃ s, occursAt pattern text s
    · exact ⟨true, h.1 hocc⟩
    · exact ⟨false, h.2 hocc⟩
  · have hc : textCheck text = false := by
      cases hb : textCheck text with
      | false => rfl
      | true => exact absurd ((textCheck_iff text).mp hb) ht
    exact ⟨false, by simp only [HorspoolStringMatching, HorspoolStringMatchingFuel, hc, if_true]⟩

/-- A text with a character that is not a letter is returned as a non-match before
anything is printed. -/
theorem horspool_bad_text (pattern : Str) {text : Str} (isTest : Bool)
    (hbad : ∃ c ∈ text, ¬ isLetter c) :
    HorspoolStringMatching pattern text isTest = ([], .ok false) := by
  have hc : textCheck text = false := (textCheck_false_iff text).mpr hbad
  simp only [HorspoolStringMatching, HorspoolStringMatchingFuel, hc, if_true]

/-! ## The claims about `HorspoolStringMatching` -/

/-- C1 (completeness): for a pattern of length `m` and a text of length `n`, both of
letters only and with `m + n` in the range of `int`, if the pattern is a contiguous
part of the text (at its beginning, in the middle or at its end) then
`HorspoolStringMatching` returns `true`.  The bound `m ≥ 1` of the claim is not needed. -/
theorem horspool_complete (pattern text : Str) (isTest : Bool)
    (_hfit : (pattern.length : Int) + text.length ≤ 2147483647)
    (hp : onlyLetters pattern) (ht : onlyLetters text)
    (hocc : pattern <:+: text) :
    (HorspoolStringMatching pattern text isTest).2 = .ok true := by
  obtain ⟨table, htab⟩ := shiftTable_ok hp
  exact (horspool_value isTest (text.length + 1) (le_refl _) ht htab).1
    ((occurs_iff_isInfix pattern text).mpr hocc)

theorem horspool_complete_witness :
    (HorspoolStringMatching (str "abc") (str "xyzabcxyz") false).2 = .ok true ∧
    (HorspoolStringMatching (str "the") (str "feather") true).2 = .ok true ∧
    (HorspoolStringMatching (str "the") (str "other") true).2 = .ok true ∧
    (HorspoolStringMatching (str "the") (str "theory") false).2 = .ok true ∧
    (HorspoolStringMatching (str "the") (str "bathe") false).2 = .ok true :=
  ⟨horspool_complete (str "abc") (str "xyzabcxyz") false (by decide) (by decide) (by decide)
      ⟨str "xyz", str "xyz", by decide⟩,
    horspool_complete (str "the") (str "feather") true (by decide) (by decide) (by decide)
      ⟨str "fea", str "r", by decide⟩,
    horspool_complete (str "the") (str "other") true (by decide) (by decide) (by decide)
      ⟨str "o", str "r", by decide⟩,
    horspool_complete (str "the") (str "theory") false (by decide) (by decide) (by decide)
      ⟨[], str "ory", by decide⟩,
    horspool_complete (str "the") (str "bathe") false (by decide) (by decide) (by decide)
      ⟨str "ba", [], by decide⟩⟩

/-- C2 (soundness): for a pattern of length `m` and a text of length `n`, both of
letters only and with `m + n` in the range of `int`, if `HorspoolStringMatching`
returns `true` then there is a position `s` with `s + m ≤ n` and
`text[s + j] = pattern[j]` for every `j < m`; and when there is no such position it
returns `false`.  The bound `m ≥ 1` of the claim is not needed. -/
theorem horspool_sound (pattern text : Str) (isTest : Bool)
    (_hfit : (pattern.length : Int) + text.length ≤ 2147483647)
    (hp : onlyLetters pattern) (ht : onlyLetters text) :
    ((HorspoolStringMatching pattern text isTest).2 = .ok true →
      ∃ s, s + pattern.length ≤ text.length ∧
        ∀ j, j < pattern.length → text[s + j]? = pattern[j]?) ∧
    ((¬ ∃ s, s + pattern.length ≤ text.length ∧
        ∀ j, j < pattern.length → text[s + j]? = pattern[j]?) →
      (HorspoolStringMatching pattern text isTest).2 = .ok false) := by
  obtain ⟨table, htab⟩ := shiftTable_ok hp
  have h := horspool_value isTest (text.length + 1) (le_refl _) ht htab
  refine ⟨fun htrue => ?_, fun hno => h.2 hno⟩
  by_contra hno
  have hfalse := h.2 hno
  rw [show HorspoolStringMatchingFuel (text.length + 1) pattern text isTest
    = HorspoolStringMatching pattern text isTest from rfl, htrue] at hfalse
  cases hfalse

theorem horspool_sound_witness :
    (HorspoolStringMatching (str "the") (str "ostrich") false).2 = .ok false ∧
    ∃ s, s + (str "the").length ≤ (str "feather").length ∧
      ∀ j, j < (str "the").length → (str "feather")[s + j]? = (str "the")[j]? :=
  ⟨(horspool_sound (str "the") (str "ostrich") false (by decide) (by decide) (by decide)).2
      (by
        rintro ⟨s, hs, h⟩
        have hs' : s ≤ 4 := by
          have : (str "the").length = 3 := rfl
          have : (str "ostrich").length = 7 := rfl
          omega
        interval_cases s
        · exact absurd (h 0 (by decide)) (by decide)
        · exact absurd (h 0 (by decide)) (by decide)
        · exact absurd (h 1 (by decide)) (by decide)
        · exact absurd (h 0 (by decide)) (by decide)
        · exact absurd (h 0 (by decide)) (by decide)),
    (horspool_sound (str "the") (str "feather") false (by decide) (by decide) (by decide)).1
      (by decide)⟩

/-- C3: for every pattern and every text of a length `n` in the range of `int` with a
character below 65, above 122 or in 91..96, `HorspoolStringMatching` returns `false`,
and prints nothing.  The pattern is not bounded: the text check returns before the
pattern or its length is used. -/
theorem horspool_rejects_unsupported_text (pattern text : Str) (isTest : Bool)
    (_hfit : (text.length : Int) ≤ 2147483647)
    (hbad : ∃ c ∈ text, c < 65 ∨ c > 122 ∨ (91 ≤ c ∧ c ≤ 96)) :
    HorspoolStringMatching pattern text isTest = ([], .ok false) := by
  obtain ⟨c, hc, h⟩ := hbad
  exact horspool_bad_text pattern isTest ⟨c, hc, by unfold isLetter; omega⟩

theorem horspool_rejects_unsupported_text_witness :
    HorspoolStringMatching (str "hi") (str "hi5") false = ([], .ok false) ∧
    HorspoolStringMatching (str "hi5") (str "hi5") true = ([], .ok false) :=
  ⟨horspool_rejects_unsupported_text (str "hi") (str "hi5") false (by decide)
      ⟨53, by decide, by decide⟩,
    horspool_rejects_unsupported_text (str "hi5") (str "hi5") true (by decide)
      ⟨53, by decide, by decide⟩⟩

/-- C4: for a pattern of letters of a length `m` in the range of `int` and a text
shorter than the pattern, `HorspoolStringMatching` returns `false`, and it does so
with no fuel at all, that is, without one execution of the body of the scan loop (so
the cursor is never moved). -/
theorem horspool_short_text (pattern text : Str) (isTest : Bool)
    (_hfit : (pattern.length : Int) ≤ 2147483647)
    (hp : onlyLetters pattern) (hlen : text.length < pattern.length) :
    (HorspoolStringMatching pattern text isTest).2 = .ok false ∧
    (HorspoolStringMatchingFuel 0 pattern text isTest).2 = .ok false := by
  have key : ∀ fuel, (HorspoolStringMatchingFuel fuel pattern text isTest).2 = .ok false := by
    intro fuel
    obtain ⟨table, htab⟩ := shiftTable_ok hp
    have hout : ¬ ((pattern.length : Int) - 1 ≤ (text.length : Int) - 1) := by omega
    unfold HorspoolStringMatchingFuel
    split
    · rfl
    · rw [htab]
      cases fuel with
      | zero => simp only [scanLoop, if_neg hout]
      | succ f => simp only [scanLoop, if_neg hout]
  exact ⟨key _, key 0⟩

theorem horspool_short_text_witness :
    (HorspoolStringMatching (str "the") (str "th") false).2 = .ok false ∧
    (HorspoolStringMatchingFuel 0 (str "the") (str "th") false).2 = .ok false :=
  horspool_short_text (str "the") (str "th") false (by decide) (by decide) (by decide)

/-- C5: a pattern of letters of a length in the range of `int` matches itself:
`HorspoolStringMatching P P` returns `true`, the empty pattern included, and fuel for
one execution of the body of the scan loop is enough (the first execution returns
`true`, so the cursor is never moved). -/
theorem horspool_self (pattern : Str) (isTest : Bool)
    (_hfit : (pattern.length : Int) ≤ 2147483647) (hp : onlyLetters pattern) :
    (HorspoolStringMatching pattern pattern isTest).2 = .ok true ∧
    (HorspoolStringMatchingFuel 1 pattern pattern isTest).2 = .ok true := by
  obtain ⟨table, htab⟩ := shiftTable_ok hp
  have hocc : ∃ s, occursAt pattern pattern s :=
    (occurs_iff_isInfix pattern pattern).mpr (List.infix_refl _)
  refine ⟨(horspool_value isTest (pattern.length + 1) (le_refl _) hp htab).1 hocc, ?_⟩
  by_cases hm : 1 ≤ pattern.length
  · exact (horspool_value_tight isTest 1 hm (by omega) hp htab).1 hocc
  · have hnil : pattern = [] := List.length_eq_zero.mp (by omega)
    subst hnil
    have h1 : ([] : Str).length + 1 ≤ 1 := by decide
    exact (horspool_value isTest 1 h1 hp htab).1 hocc

theorem horspool_self_witness :
    (HorspoolStringMatching (str "the") (str "the") false).2 = .ok true ∧
    (HorspoolStringMatching [] [] false).2 = .ok true :=
  ⟨(horspool_self (str "the") false (by decide) (by decide)).1,
    (horspool_self [] false (by decide) (by decide)).1⟩

/-! ## The claims about the shift table -/

/-- C6 (shift table): for a pattern `P` of letters of length `m ≥ 1`, `m` in the range
of `int`, and a letter `c`, the table is built without a fault, has 52 entries, holds
`m` at the index of `c` when `c` is at none of the positions `0..m-2`, and holds
`m - 1 - j` there when `j` is the greatest of the positions `0..m-2` with `P[j] = c`;
it is the table that `HorspoolStringMatching` prints when `isTest` is set, for a text
of letters of a length `n` with `m + n` in the range of `int`. -/
theorem shiftTable_entry (pattern : Str) (c : Int) (hm : 1 ≤ pattern.length)
    (_hfit : (pattern.length : Int) ≤ 2147483647)
    (hp : onlyLetters pattern) (hc : isLetter c) :
    ∃ table, shiftTable pattern = .ok table ∧ table.length = 52 ∧
      ((∀ j, j + 1 < pattern.length → pattern[j]? ≠ some c) →
        tableGet table (tableIndex c) = .ok (pattern.length : Int)) ∧
      (∀ j, j + 1 < pattern.length → pattern[j]? = some c →
        (∀ j', j < j' → j' + 1 < pattern.length → pattern[j']? ≠ some c) →
        tableGet table (tableIndex c) = .ok ((pattern.length : Int) - 1 - j)) ∧
      (∀ text, onlyLetters text → (pattern.length : Int) + text.length ≤ 2147483647 →
        (HorspoolStringMatching pattern text true).1
          = [Event.shiftTableLine pattern table text]) := by
  obtain ⟨table, htab⟩ := shiftTable_ok hp
  have hspec := shiftTable_spec htab
  have hr := tableIndex_range hc
  have hidx : (tableIndex c).toNat < 52 := by omega
  have hcast : (((tableIndex c).toNat : Nat) : Int) = tableIndex c := by omega
  refine ⟨table, htab, hspec.1, ?_, ?_, ?_⟩
  · intro hno
    apply tableGet_of_getElem hr.1
    rcases hspec.2 _ hidx with ⟨_, hv⟩ | ⟨j0, d, hj0, hd, hdi, _, _⟩
    · exact hv
    · have hdc : d = c :=
        tableIndex_inj (onlyLetters_getElem hp hd) hc (by rw [hdi, hcast])
      subst hdc
      exact absurd hd (hno j0 (by omega))
  · intro j hj hjc hlast
    apply tableGet_of_getElem hr.1
    rcases hspec.2 _ hidx with ⟨hno, _⟩ | ⟨j0, d, hj0, hd, hdi, hv, hlast0⟩
    · exact absurd hcast.symm (hno j c (by omega) hjc)
    · have hdc : d = c :=
        tableIndex_inj (onlyLetters_getElem hp hd) hc (by rw [hdi, hcast])
      subst hdc
      have hjj : j0 = j := by
        by_contra hne
        rcases Nat.lt_or_gt_of_ne hne with hlt | hgt
        · exact hlast0 j d hlt (by omega) hjc hcast.symm
        · exact hlast j0 hgt (by omega) hd
      subst hjj
      exact hv
  · intro text ht _
    simp only [HorspoolStringMatching, HorspoolStringMatchingFuel,
      if_neg (textCheck_ne_false ht), htab, if_true]

theorem shiftTable_entry_witness :
    (∃ table, shiftTable (str "the") = .ok table ∧
      tableGet table (tableIndex 116) = .ok 2) ∧
    (∃ table, shiftTable (str "the") = .ok table ∧
      tableGet table (tableIndex 104) = .ok 1) ∧
    (∃ table, shiftTable (str "the") = .ok table ∧
      tableGet table (tableIndex 101) = .ok 3) ∧
    (∃ table, shiftTable (str "the") = .ok table ∧
      tableGet table (tableIndex 90) = .ok 3) := by
  refine ⟨?_, ?_, ?_, ?_⟩
  · obtain ⟨table, h, _, _, h2, _⟩ :=
      shiftTable_entry (str "the") 116 (by decide) (by decide) (by decide) (by decide)
    refine ⟨table, h, h2 0 (by decide) (by decide) ?_⟩
    intro j' h1 h3
    have : (str "the").length = 3 := rfl
    have : j' = 1 := by omega
    subst this
    decide
  · obtain ⟨table, h, _, _, h2, _⟩ :=
      shiftTable_entry (str "the") 104 (by decide) (by decide) (by decide) (by decide)
    refine ⟨table, h, h2 1 (by decide) (by decide) ?_⟩
    intro j' h1 h3
    have : (str "the").length = 3 := rfl
    omega
  · obtain ⟨table, h, _, h1, _, _⟩ :=
      shiftTable_entry (str "the") 101 (by decide) (by decide) (by decide) (by decide)
    refine ⟨table, h, h1 ?_⟩
    intro j hj
    have : (str "the").length = 3 := rfl
    have : j = 0 ∨ j = 1 := by omega
    rcases this with rfl | rfl <;> decide
  · obtain ⟨table, h, _, h1, _, _⟩ :=
      shiftTable_entry (str "the") 90 (by decide) (by decide) (by decide) (by decide)
    refine ⟨table, h, h1 ?_⟩
    intro j hj
    have : (str "the").length = 3 := rfl
    have : j = 0 ∨ j = 1 := by omega
    rcases this with rfl | rfl <;> decide

/-- C7: for a pattern of letters of length `m ≥ 1`, `m` in the range of `int`, the
shift table is built without a fault and each of its 52 entries lies in `[1, m]`. -/
theorem shiftTable_bounds (pattern : Str) (hm : 1 ≤ pattern.length)
    (_hfit : (pattern.length : Int) ≤ 2147483647) (hp : onlyLetters pattern) :
    ∃ table, shiftTable pattern = .ok table ∧ table.length = 52 ∧
      ∀ v ∈ table, 1 ≤ v ∧ v ≤ (pattern.length : Int) := by
  obtain ⟨table, htab⟩ := shiftTable_ok hp
  have hspec := shiftTable_spec htab
  refine ⟨table, htab, hspec.1, fun v hv => ?_⟩
  obtain ⟨idx, hidx⟩ := List.getElem?_of_mem hv
  exact hspec.entry_bounds hm hidx

theorem shiftTable_bounds_witness :
    ∃ table, shiftTable (str "the") = .ok table ∧ table.length = 52 ∧
      ∀ v ∈ table, 1 ≤ v ∧ v ≤ ((str "the").length : Int) :=
  shiftTable_bounds (str "the") (by decide) (by decide) (by decide)

/-- C8: the index `tableIndex` (`c - 97` for a lowercase letter, `c - 39` for every
other character) is a bijection from the 52 letters onto `0..51`, from `a-z` onto `0..25` and
from `A-Z` onto `26..51`. -/
theorem tableIndex_bijection :
    Set.BijOn tableIndex {c | isLetter c} (Set.Ico 0 52) ∧
    Set.BijOn tableIndex (Set.Icc 97 122) (Set.Icc 0 25) ∧
    Set.BijOn tableIndex (Set.Icc 65 90) (Set.Icc 26 51) ∧
    (∀ c, 97 ≤ c ∧ c ≤ 122 → tableIndex c = c - 97) ∧
    (∀ c, ¬ (97 ≤ c ∧ c ≤ 122) → tableIndex c = c - 39) := by
  have hinj : ∀ s : Set Int, s ⊆ {c | isLetter c} → Set.InjOn tableIndex s :=
    fun s hs c hc d hd h => tableIndex_inj (hs hc) (hs hd) h
  refine ⟨⟨?_, hinj _ (fun c hc => hc), ?_⟩, ⟨?_, hinj _ ?_, ?_⟩, ⟨?_, hinj _ ?_, ?_⟩,
    fun c h => tableIndex_lower h, ?_⟩
  · intro c hc
    exact Set.mem_Ico.mpr (tableIndex_range hc)
  · intro i hi
    have hi' := Set.mem_Ico.mp hi
    by_cases h : i < 26
    · exact ⟨i + 97, Or.inr (by omega), by rw [tableIndex_lower (by omega)]; omega⟩
    · exact ⟨i + 39, Or.inl (by omega), by rw [tableIndex_upper (by omega)]; omega⟩
  · intro c hc
    have hc' := Set.mem_Icc.mp hc
    rw [tableIndex_lower hc']
    exact Set.mem_Icc.mpr (by omega)
  · intro c hc
    exact Or.inr (Set.mem_Icc.mp hc)
  · intro i hi
    have hi' := Set.mem_Icc.mp hi
    exact ⟨i + 97, Set.mem_Icc.mpr (by omega), by rw [tableIndex_lower (by omega)]; omega⟩
  · intro c hc
    have hc' := Set.mem_Icc.mp hc
    rw [tableIndex_upper hc']
    exact Set.mem_Icc.mpr (by omega)
  · intro c hc
    exact Or.inl (Set.mem_Icc.mp hc)
  · intro i hi
    have hi' := Set.mem_Icc.mp hi
    exact ⟨i + 39, Set.mem_Icc.mpr (by omega), by rw [tableIndex_upper (by omega)]; omega⟩
  · intro c hlow
    unfold tableIndex
    rw [if_pos (by omega)]

theorem tableIndex_bijection_witness :
    tableIndex 97 = 0 ∧ tableIndex 122 = 25 ∧ tableIndex 65 = 26 ∧ tableIndex 90 = 51 :=
  ⟨by rw [tableIndex_bijection.2.2.2.1 97 (by decide)]; decide,
    by rw [tableIndex_bijection.2.2.2.1 122 (by decide)]; decide,
    by rw [tableIndex_bijection.2.2.2.2 65 (by decide)]; decide,
    by rw [tableIndex_bijection.2.2.2.2 90 (by decide)]; decide⟩

/-! ## `matchPatternToTexts`, `report` and `run` -/

theorem matchLoop_spec (pattern : Str) (isTest : Bool) :
    ∀ (texts matchingTexts : List Str),
      (∀ t ∈ texts, ∃ b, (HorspoolStringMatching pattern t isTest).2 = .ok b) →
      (matchLoop pattern isTest texts matchingTexts).2
        = .ok (matchingTexts ++ texts.filter fun t =>
            decide ((HorspoolStringMatching pattern t isTest).2 = .ok true)) := by
  intro texts
  induction texts with
  | nil =>
    intro acc _
    simp [matchLoop]
  | cons t rest ih =>
    intro acc hret
    obtain ⟨b, hb⟩ := hret t (List.mem_cons_self _ _)
    have hrest : ∀ t' ∈ rest, ∃ b, (HorspoolStringMatching pattern t' isTest).2 = .ok b :=
      fun t' ht' => hret t' (List.mem_cons_of_mem _ ht')
    have hpair : HorspoolStringMatching pattern t isTest
        = ((HorspoolStringMatching pattern t isTest).1, .ok b) := Prod.ext rfl hb
    rw [matchLoop, hpair]
    simp only
    rw [ih _ hrest, List.filter_cons, hb]
    cases b <;> simp

theorem horspool_out (pattern text : Str) (isTest : Bool) :
    ∀ e ∈ (HorspoolStringMatching pattern text isTest).1,
      ∃ table, e = Event.shiftTableLine pattern table text := by
  intro e he
  unfold HorspoolStringMatching HorspoolStringMatchingFuel at he
  split at he
  · simp at he
  · split at he
    · simp at he
    · next table _ =>
      cases isTest
      · simp at he
      · exact ⟨table, by simpa using he⟩

theorem matchLoop_out (pattern : Str) (isTest : Bool) :
    ∀ (texts matchingTexts : List Str),
      reportHeaders (matchLoop pattern isTest texts matchingTexts).1 = [] := by
  intro texts
  induction texts with
  | nil => intro acc; rfl
  | cons t rest ih =>
    intro acc
    have hh : reportHeaders (HorspoolStringMatching pattern t isTest).1 = [] := by
      unfold reportHeaders
      rw [List.filterMap_eq_nil_iff]
      intro e he
      obtain ⟨table, rfl⟩ := horspool_out pattern t isTest e he
      rfl
    rw [matchLoop]
    cases hres : HorspoolStringMatching pattern t isTest with
    | mk out r =>
      rw [hres] at hh
      cases r with
      | fault f => exact hh
      | ok found =>
        simp only
        have := ih (if found then acc ++ [t] else acc)
        unfold reportHeaders at this hh ⊢
        rw [List.filterMap_append, hh, this]
        rfl

theorem patternCheckExits_iff (pattern : Str) :
    patternCheckExits false pattern = true ↔ ∃ c ∈ pattern, ¬ isLetter c := by
  induction pattern with
  | nil => simp [patternCheckExits]
  | cons c rest ih =>
    rw [patternCheckExits]
    by_cases h1 : c < 65 ∨ c > 122
    · have hbad : ¬ isLetter c := by unfold isLetter; omega
      have : (∃ d ∈ c :: rest, ¬ isLetter d) := ⟨c, List.mem_cons_self _ _, hbad⟩
      simp only [h1, if_true, this, iff_true]
      split <;> simp
    · by_cases h2 : c < 97 ∧ c > 90
      · have hbad : ¬ isLetter c := by unfold isLetter; omega
        have : (∃ d ∈ c :: rest, ¬ isLetter d) := ⟨c, List.mem_cons_self _ _, hbad⟩
        simp only [h2, and_self, if_true, this]
      · have hgood : isLetter c := by unfold isLetter; omega
        simp only [h1, h2, if_false]
        rw [if_neg (by decide), ih]
        simp [hgood]

/-- With a pattern of letters, `report` returns, and prints one report header, the one
of its file. -/
theorem report_spec (files : Files) (pattern fileName : Str) (isTest : Bool)
    (hp : onlyLetters pattern) :
    (report files pattern fileName isTest).2 = .ok () ∧
    reportHeaders (report files pattern fileName isTest).1 = [fileName] := by
  have hm := matchLoop_spec pattern isTest (textsFromFile files fileName).2 []
    (fun t _ => horspool_returns hp t isTest)
  have ho := matchLoop_out pattern isTest (textsFromFile files fileName).2 []
  have hpair : matchPatternToTexts pattern (textsFromFile files fileName).2 isTest
      = ((matchLoop pattern isTest (textsFromFile files fileName).2 []).1, .ok ([] ++
          (textsFromFile files fileName).2.filter fun t =>
            decide ((HorspoolStringMatching pattern t isTest).2 = .ok true))) :=
    Prod.ext rfl hm
  have hload : reportHeaders (textsFromFile files fileName).1 = [] := by
    unfold textsFromFile
    cases files fileName <;> rfl
  have hbanner : reportHeaders (if isTest then [Event.testBanner] else []) = [] := by
    cases isTest <;> rfl
  unfold report
  simp only [hpair]
  refine ⟨trivial, ?_⟩
  unfold reportHeaders at ho hload hbanner ⊢
  simp only [List.filterMap_append, ho, hload, hbanner, List.filterMap_map]
  simp [List.filterMap_eq_nil_iff]

theorem reportLoop_spec (files : Files) (pattern : Str) (isTest : Bool)
    (hp : onlyLetters pattern) :
    ∀ fileNames : List Str,
      (reportLoop files pattern isTest fileNames).2 = .ok () ∧
      (reportLoop files pattern isTest fileNames).1
        = fileNames.flatMap (fun f => (report files pattern f isTest).1) ∧
      reportHeaders (reportLoop files pattern isTest fileNames).1 = fileNames := by
  intro fileNames
  induction fileNames with
  | nil => exact ⟨rfl, rfl, rfl⟩
  | cons f rest ih =>
    obtain ⟨h1, h2⟩ := report_spec files pattern f isTest hp
    have hpair : report files pattern f isTest
        = ((report files pattern f isTest).1, .ok ()) := Prod.ext rfl h1
    rw [reportLoop, hpair]
    simp only
    refine ⟨ih.1, ?_, ?_⟩
    · rw [ih.2.1, List.flatMap_cons]
    · have h3 := ih.2.2
      unfold reportHeaders at h2 h3 ⊢
      rw [List.filterMap_append, h2, h3]
      rfl

/-- C9: for a pattern of a length `m` in the range of `int`: when the pattern has a
character that is not a letter, `run` ends in the exit of line 256, having printed the
invalid-pattern line and nothing else (no file was opened, no report was started); and
when every text of every file named has a length `n` with `m + n` in the range of
`int`, `run` ends in that exit exactly when the pattern has such a character, and with
a pattern of letters it returns, its output is the output of `report` for each file
name in list order, and the report headers it prints are those of the file names, one
each, in list order. -/
theorem run_aborts_iff_invalid (files : Files) (pattern : Str) (fileNames : List Str)
    (isTest : Bool) (_hfit : (pattern.length : Int) ≤ 2147483647) :
    ((∃ c ∈ pattern, ¬ isLetter c) →
      run files pattern fileNames isTest = ([Event.invalidPattern], .ok (.exited 0))) ∧
    ((∀ f ∈ fileNames, ∀ texts, files f = some texts →
        ∀ t ∈ texts, (pattern.length : Int) + t.length ≤ 2147483647) →
      ((run files pattern fileNames isTest).2 = .ok (.exited 0) ↔
        ∃ c ∈ pattern, ¬ isLetter c) ∧
      (onlyLetters pattern →
        (run files pattern fileNames isTest).2 = .ok .returned ∧
        (run files pattern fileNames isTest).1
          = fileNames.flatMap (fun f => (report files pattern f isTest).1) ∧
        reportHeaders (run files pattern fileNames isTest).1 = fileNames)) := by
  have hinv : (∃ c ∈ pattern, ¬ isLetter c) →
      run files pattern fileNames isTest = ([Event.invalidPattern], .ok (.exited 0)) := by
    intro h
    rw [run, if_pos ((patternCheckExits_iff pattern).mpr h)]
  have hval : onlyLetters pattern →
      (run files pattern fileNames isTest).2 = .ok .returned ∧
      (run files pattern fileNames isTest).1
        = fileNames.flatMap (fun f => (report files pattern f isTest).1) ∧
      reportHeaders (run files pattern fileNames isTest).1 = fileNames := by
    intro hp
    have hno : ¬ (patternCheckExits false pattern = true) := by
      rw [patternCheckExits_iff]
      rintro ⟨c, hc, h⟩
      exact h (hp c hc)
    obtain ⟨h1, h2, h3⟩ := reportLoop_spec files pattern isTest hp fileNames
    have hpair : reportLoop files pattern isTest fileNames
        = ((reportLoop files pattern isTest fileNames).1, .ok ()) := Prod.ext rfl h1
    have hrun : run files pattern fileNames isTest
        = ((reportLoop files pattern isTest fileNames).1, .ok .returned) := by
      rw [run, if_neg hno, hpair]
    rw [hrun]
    exact ⟨rfl, h2, h3⟩
  refine ⟨hinv, fun _ => ⟨⟨fun h => ?_, fun h => by rw [hinv h]⟩, hval⟩⟩
  by_contra hno
  have hp : onlyLetters pattern := by
    intro c hc
    by_contra hl
    exact hno ⟨c, hc, hl⟩
  rw [(hval hp).1] at h
  cases h

theorem run_aborts_iff_invalid_witness :
    run (fun _ => some [str "the", str "other"]) (str "The1") [str "sample"] false
      = ([Event.invalidPattern], .ok (.exited 0)) ∧
    reportHeaders (run (fun _ => some [str "the", str "hi5"]) (str "the")
      [str "sample", str "other", str "sample"] true).1
      = [str "sample", str "other", str "sample"] :=
  ⟨(run_aborts_iff_invalid (fun _ => some [str "the", str "other"]) (str "The1")
      [str "sample"] false (by decide)).1 ⟨49, by decide, by decide⟩,
    (((run_aborts_iff_invalid (fun _ => some [str "the", str "hi5"]) (str "the")
      [str "sample", str "other", str "sample"] true (by decide)).2
      (by
        intro f _ texts h
        cases h
        decide)).2 (by decide)).2.2⟩

/-- C10: for a pattern of length `m` and a list of texts whose lengths `n` all have
`m + n` in the range of `int`, when each call of `HorspoolStringMatching` on a text of
the list returns a boolean (as it does for every pattern of letters),
`matchPatternToTexts` returns the texts of the list on which the call returns `true`,
in their order and with their repetitions; a text with an unsupported character is
not among them, and taking it out of the list does not change the result. -/
theorem matchPatternToTexts_filter (pattern : Str) (allTexts : List Str) (isTest : Bool)
    (_hfit : ∀ t ∈ allTexts, (pattern.length : Int) + t.length ≤ 2147483647)
    (hret : ∀ t ∈ allTexts, ∃ b, (HorspoolStringMatching pattern t isTest).2 = .ok b) :
    (matchPatternToTexts pattern allTexts isTest).2
      = .ok (allTexts.filter fun t =>
          decide ((HorspoolStringMatching pattern t isTest).2 = .ok true)) ∧
    (∀ t, (∃ c ∈ t, ¬ isLetter c) →
      t ∉ allTexts.filter fun t =>
          decide ((HorspoolStringMatching pattern t isTest).2 = .ok true)) ∧
    (∀ xs bad ys, allTexts = xs ++ bad :: ys → (∃ c ∈ bad, ¬ isLetter c) →
      (matchPatternToTexts pattern allTexts isTest).2
        = (matchPatternToTexts pattern (xs ++ ys) isTest).2) := by
  have hbad : ∀ t, (∃ c ∈ t, ¬ isLetter c) →
      decide ((HorspoolStringMatching pattern t isTest).2 = .ok true) = false := by
    intro t ht
    rw [horspool_bad_text pattern isTest ht]
    decide
  have hall := matchLoop_spec pattern isTest allTexts [] hret
  rw [List.nil_append] at hall
  refine ⟨hall, ?_, ?_⟩
  · intro t ht hmem
    have := (List.mem_filter.mp hmem).2
    rw [hbad t ht] at this
    cases this
  · intro xs bad ys hsplit hb
    have hret' : ∀ t ∈ xs ++ ys,
        ∃ b, (HorspoolStringMatching pattern t isTest).2 = .ok b := by
      intro t ht
      apply hret t
      rw [hsplit]
      rcases List.mem_append.mp ht with h | h
      · exact List.mem_append_left _ h
      · exact List.mem_append_right _ (List.mem_cons_of_mem _ h)
    have hsub := matchLoop_spec pattern isTest (xs ++ ys) [] hret'
    rw [List.nil_append] at hsub
    show (matchLoop pattern isTest allTexts []).2 = (matchLoop pattern isTest (xs ++ ys) []).2
    rw [hall, hsub, hsplit, List.filter_append, List.filter_append, List.filter_cons,
      hbad bad hb]
    rfl

theorem matchPatternToTexts_filter_witness :
    (matchPatternToTexts (str "the")
      [str "other", str "hi5", str "ostrich", str "the", str "other"] false).2
      = .ok [str "other", str "the", str "other"] :=
  (matchPatternToTexts_filter (str "the")
    [str "other", str "hi5", str "ostrich", str "the", str "other"] false
    (by decide) (by decide)).1

/-! ## The body of the scan loop -/

/-- The scan loop is the repetition of `scanBody` while `i ≤ n - 1`. -/
theorem scanLoop_succ (pattern text : Str) (table : List Int) (m n : Int) (fuel : Nat)
    (i : Int) :
    scanLoop pattern text table m n (fuel + 1) i
      = if i ≤ n - 1 then
          match scanBody pattern text table m i with
          | .found => .ok true
          | .advance i' => scanLoop pattern text table m n fuel i'
          | .fault f => .fault f
        else .ok false := by
  rw [scanLoop]
  unfold scanBody
  by_cases hi : i ≤ n - 1
  · rw [if_pos hi, if_pos hi]
    cases compareLoop pattern text m i pattern.length 0 with
    | fault f => rfl
    | ok k =>
      by_cases hk : k = m
      · simp only [hk, if_true]
      · simp only [hk, if_false]
        cases charAt text i with
        | fault f => rfl
        | ok c =>
          dsimp only
          cases tableGet table (tableIndex c) with
          | fault f => rfl
          | ok shift => rfl
  · rw [if_neg hi, if_neg hi]

/-- One execution of the loop body in a window that lies inside the text, for a text of
letters: the character `c` under the last pattern position has a table entry `d` in
`[1, m]`; the body returns `true` when the pattern occurs in the window, and moves the
cursor by `d` when it does not. -/
theorem scanBody_spec {pattern text table : List Int} (hm : 1 ≤ pattern.length)
    (ht : onlyLetters text)
    (htab : TableAfter pattern pattern.length (pattern.length - 1) table)
    (s : Nat) (hs : s + pattern.length ≤ text.length) :
    ∃ c d, charAt text ((s : Int) + pattern.length - 1) = .ok c ∧
      tableGet table (tableIndex c) = .ok d ∧ 1 ≤ d ∧ d ≤ (pattern.length : Int) ∧
      (occursAt pattern text s →
        scanBody pattern text table pattern.length ((s : Int) + pattern.length - 1)
          = .found) ∧
      (¬ occursAt pattern text s →
        scanBody pattern text table pattern.length ((s : Int) + pattern.length - 1)
          = .advance ((s : Int) + pattern.length - 1 + d)) := by
  obtain ⟨k', hcmp, hfull⟩ := compareLoop_full pattern text s hs
  obtain ⟨c, hc⟩ : ∃ c, text[s + pattern.length - 1]? = some c :=
    ⟨_, List.getElem?_eq_getElem (by omega)⟩
  have e1 : ((s : Int) + pattern.length - 1).toNat = s + pattern.length - 1 := by omega
  have hchar : charAt text ((s : Int) + pattern.length - 1) = .ok c :=
    charAt_of_getElem (by omega) (by rw [e1]; exact hc)
  have hr := tableIndex_range (onlyLetters_getElem ht hc)
  obtain ⟨d, hd⟩ : ∃ d, table[(tableIndex c).toNat]? = some d :=
    ⟨_, List.getElem?_eq_getElem (by rw [htab.1]; omega)⟩
  have hget : tableGet table (tableIndex c) = .ok d := tableGet_of_getElem hr.1 hd
  have hdb := htab.entry_bounds hm hd
  refine ⟨c, d, hchar, hget, hdb.1, hdb.2, fun hocc => ?_, fun hno => ?_⟩
  · have hk : (k' : Int) = (pattern.length : Int) := by
      have := hfull.mpr hocc
      omega
    simp only [scanBody, hcmp, hk, if_true]
  · have hk : ¬ ((k' : Int) = (pattern.length : Int)) := by
      intro h
      exact hno (hfull.mp (by omega))
    simp only [scanBody, hcmp, hk, if_false, hchar, hget]

/-- The scan loop makes at most one execution of its body for each window that is
left: at most `n + 1 - (s + m)` from the window at `s`, whatever the fuel. -/
theorem scanIterations_le {pattern text table : List Int} (hm : 1 ≤ pattern.length)
    (ht : onlyLetters text)
    (htab : TableAfter pattern pattern.length (pattern.length - 1) table) :
    ∀ (fuel s : Nat),
      scanIterations pattern text table pattern.length text.length fuel
        ((s : Int) + pattern.length - 1) ≤ text.length + 1 - (s + pattern.length) := by
  intro fuel
  induction fuel with
  | zero =>
    intro s
    rw [scanIterations]
    exact Nat.zero_le _
  | succ fuel ih =>
    intro s
    rw [scanIterations]
    by_cases hin : s + pattern.length ≤ text.length
    · have hcond : (s : Int) + pattern.length - 1 ≤ (text.length : Int) - 1 := by omega
      obtain ⟨c, d, _, _, hd1, _, hfound, hadv⟩ := scanBody_spec hm ht htab s hin
      rw [if_pos hcond]
      by_cases hocc : occursAt pattern text s
      · rw [hfound hocc]
        show 1 ≤ _
        omega
      · rw [hadv hocc]
        have e : (s : Int) + pattern.length - 1 + d
            = ((s + d.toNat : Nat) : Int) + pattern.length - 1 := by
          push_cast
          omega
        rw [e]
        have := ih (s + d.toNat)
        show 1 + _ ≤ _
        omega
    · have hout : ¬ ((s : Int) + pattern.length - 1 ≤ (text.length : Int) - 1) := by omega
      rw [if_neg hout]
      exact Nat.zero_le _

/-- What `HorspoolStringMatching` prints does not depend on the fuel of the scan loop. -/
theorem horspool_out_fuel (pattern text : Str) (isTest : Bool) (f f' : Nat) :
    (HorspoolStringMatchingFuel f pattern text isTest).1
      = (HorspoolStringMatchingFuel f' pattern text isTest).1 := by
  unfold HorspoolStringMatchingFuel
  split
  · rfl
  · split <;> rfl

/-! ## The claims about the scan loop -/

/-- C11 (termination): for a pattern of length `m ≥ 1` and a text of length `n`, both of
letters only and with `m + n` in the range of `int`, the scan loop ends: fuel for
`n - m + 1` executions of its body (none when `m > n`) gives the result of
`HorspoolStringMatching`, a boolean; the loop executes its body at most `n - m + 1`
times; and an execution of the body that does not return `true` increases the cursor
`i` by at least 1, to a value in the range of `int`. -/
theorem scan_terminates (pattern text : Str) (isTest : Bool) (hm : 1 ≤ pattern.length)
    (hfit : (pattern.length : Int) + text.length ≤ 2147483647)
    (hp : onlyLetters pattern) (ht : onlyLetters text) :
    ∃ table, shiftTable pattern = .ok table ∧
      (∃ b, (HorspoolStringMatchingFuel (text.length + 1 - pattern.length)
          pattern text isTest).2 = .ok b) ∧
      HorspoolStringMatchingFuel (text.length + 1 - pattern.length) pattern text isTest
        = HorspoolStringMatching pattern text isTest ∧
      (∀ fuel, scanIterations pattern text table pattern.length text.length fuel
          ((pattern.length : Int) - 1) ≤ text.length + 1 - pattern.length) ∧
      (∀ i i' : Int, (pattern.length : Int) - 1 ≤ i → i ≤ (text.length : Int) - 1 →
        scanBody pattern text table pattern.length i = .advance i' →
          i + 1 ≤ i' ∧ i' ≤ 2147483647) := by
  obtain ⟨table, htab⟩ := shiftTable_ok hp
  have hspec := shiftTable_spec htab
  have h1 := horspool_value_tight isTest (text.length + 1 - pattern.length) hm (by omega)
    ht htab
  have h2 := horspool_value isTest (text.length + 1) (le_refl _) ht htab
  refine ⟨table, htab, ?_, ?_, ?_, ?_⟩
  · by_cases hocc : ∃ s, occursAt pattern text s
    · exact ⟨true, h1.1 hocc⟩
    · exact ⟨false, h1.2 hocc⟩
  · refine Prod.ext (horspool_out_fuel pattern text isTest _ _) ?_
    show _ = (HorspoolStringMatchingFuel (text.length + 1) pattern text isTest).2
    by_cases hocc : ∃ s, occursAt pattern text s
    · rw [h1.1 hocc, h2.1 hocc]
    · rw [h1.2 hocc, h2.2 hocc]
  · intro fuel
    have := scanIterations_le hm ht hspec fuel 0
    have e : ((0 : Nat) : Int) + (pattern.length : Int) - 1 = (pattern.length : Int) - 1 := by
      omega
    rw [e] at this
    omega
  · intro i i' hlo hhi hadv
    obtain ⟨s, rfl⟩ : ∃ s : Nat, i = (s : Int) + pattern.length - 1 :=
      ⟨(i - ((pattern.length : Int) - 1)).toNat, by omega⟩
    obtain ⟨c, d, _, _, hd1, hdm, hfound, hmove⟩ :=
      scanBody_spec hm ht hspec s (by omega)
    by_cases hocc : occursAt pattern text s
    · rw [hfound hocc] at hadv
      cases hadv
    · rw [hmove hocc] at hadv
      cases hadv
      exact ⟨by omega, by omega⟩

theorem scan_terminates_witness :
    ∃ b, (HorspoolStringMatchingFuel 5 (str "the") (str "ostrich") false).2 = .ok b := by
  obtain ⟨_, _, h, _⟩ :=
    scan_terminates (str "the") (str "ostrich") false (by decide) (by decide) (by decide)
      (by decide)
  exact h

/-- C12 (bad-character rule): for a pattern of length `m ≥ 1` and a text of length `n`,
both of letters only and with `m + n` in the range of `int`, in an execution of the
body of the scan loop with the cursor at `i`, `m - 1 ≤ i ≤ n - 1`, the character
`c = text[i]` has a table entry `d`, the sum `i + d` is in the range of `int`, and the
body either returns `true` or moves the cursor to `i + d`; it moves it to `i + d`
whatever the number `k ≠ m` of characters the inner loop has matched. -/
theorem bad_character_rule (pattern text : Str) (i : Int) (hm : 1 ≤ pattern.length)
    (hfit : (pattern.length : Int) + text.length ≤ 2147483647)
    (hp : onlyLetters pattern) (ht : onlyLetters text)
    (hlo : (pattern.length : Int) - 1 ≤ i) (hhi : i ≤ (text.length : Int) - 1) :
    ∃ table c d, shiftTable pattern = .ok table ∧ charAt text i = .ok c ∧
      tableGet table (tableIndex c) = .ok d ∧ i + d ≤ 2147483647 ∧
      (scanBody pattern text table pattern.length i = .found ∨
        scanBody pattern text table pattern.length i = .advance (i + d)) ∧
      (∀ k, compareLoop pattern text pattern.length i pattern.length 0 = .ok k →
        k ≠ (pattern.length : Int) →
        scanBody pattern text table pattern.length i = .advance (i + d)) ∧
      (scanBody pattern text table pattern.length i = .advance (i + d) →
        ∀ fuel, scanLoop pattern text table pattern.length text.length (fuel + 1) i
          = scanLoop pattern text table pattern.length text.length fuel (i + d)) := by
  obtain ⟨table, htab⟩ := shiftTable_ok hp
  obtain ⟨s, rfl⟩ : ∃ s : Nat, i = (s : Int) + pattern.length - 1 :=
    ⟨(i - ((pattern.length : Int) - 1)).toNat, by omega⟩
  obtain ⟨c, d, hc, hd, _, hdm, hfound, hmove⟩ :=
    scanBody_spec hm ht (shiftTable_spec htab) s (by omega)
  refine ⟨table, c, d, htab, hc, hd, by omega, ?_, ?_, ?_⟩
  · by_cases hocc : occursAt pattern text s
    · exact Or.inl (hfound hocc)
    · exact Or.inr (hmove hocc)
  · intro k hk hne
    simp only [scanBody, hk, hne, if_false, hc, hd]
  · intro hadv fuel
    rw [scanLoop_succ, if_pos hhi, hadv]

theorem bad_character_rule_witness :
    ∃ table, shiftTable (str "the") = .ok table ∧
      scanBody (str "the") (str "ostrich") table 3 2 = .advance 4 := by
  obtain ⟨table, c, d, htab, hc, hd, _, _, hk, _⟩ :=
    bad_character_rule (str "the") (str "ostrich") 2 (by decide) (by decide) (by decide)
      (by decide) (by decide) (by decide)
  have hc' : charAt (str "ostrich") 2 = .ok 116 := by decide
  rw [hc'] at hc
  cases hc
  have ht : shiftTable (str "the") = .ok (((List.replicate 52 3).set 19 2).set 7 1) := by
    decide
  rw [ht] at htab
  cases htab
  have hd' : tableGet (((List.replicate 52 3).set 19 2).set 7 1) (tableIndex 116) = .ok 2 := by
    decide
  rw [hd'] at hd
  cases hd
  exact ⟨_, ht, hk 0 (by decide) (by decide)⟩

/-! ## More claims about the shift table and the two checks -/

/-- The first `k` iterations of the filling loop read the positions below `k` only. -/
theorem fillLoop_congr (pattern other : Str) (m : Int) :
    ∀ k : Nat, (∀ j, j < k → pattern[j]? = other[j]?) →
      fillLoop pattern m k = fillLoop other m k := by
  intro k
  induction k with
  | zero => intro _; rfl
  | succ k ih =>
    intro h
    have hchar : charAt pattern (k : Int) = charAt other (k : Int) := by
      have hk := h k (by omega)
      unfold charAt
      rw [Int.toNat_ofNat, hk]
    rw [fillLoop, fillLoop, ih (fun j hj => h j (by omega))]
    unfold fillStep
    rw [hchar]

/-- C13: two patterns of the same length that agree at the positions `0..m-2` have the
same shift table, built without a fault when the first is a pattern of letters; the
last characters may differ. -/
theorem shiftTable_ignores_last (pattern other : Str) (hp : onlyLetters pattern)
    (hlen : pattern.length = other.length)
    (hagree : ∀ j, j + 1 < pattern.length → pattern[j]? = other[j]?) :
    shiftTable pattern = shiftTable other ∧ ∃ table, shiftTable other = .ok table := by
  have heq : shiftTable pattern = shiftTable other := by
    unfold shiftTable
    rw [← hlen]
    exact fillLoop_congr pattern other _ _ (fun j hj => hagree j (by omega))
  obtain ⟨table, htab⟩ := shiftTable_ok hp
  exact ⟨heq, table, by rw [← heq, htab]⟩

theorem shiftTable_ignores_last_witness :
    shiftTable (str "the") = shiftTable (str "thy") ∧
      ∃ table, shiftTable (str "thy") = .ok table :=
  shiftTable_ignores_last (str "the") (str "thy") (by decide) (by decide)
    (by
      intro j hj
      have : (str "the").length = 3 := rfl
      have : j = 0 ∨ j = 1 := by omega
      rcases this with rfl | rfl <;> decide)

/-- C14: for a string of a length in the range of `int`, the pattern check of `run`
flags the string exactly when the text check of `HorspoolStringMatching` rejects it,
and both do so exactly when the string has a character whose code is neither in
65..90 nor in 97..122. -/
theorem checks_same_predicate (s : Str) (_hfit : (s.length : Int) ≤ 2147483647) :
    (patternCheckExits false s = true ↔ textCheck s = false) ∧
    (textCheck s = false ↔
      ∃ c ∈ s, ¬ ((65 ≤ c ∧ c ≤ 90) ∨ (97 ≤ c ∧ c ≤ 122))) ∧
    (patternCheckExits false s = true ↔
      ∃ c ∈ s, ¬ ((65 ≤ c ∧ c ≤ 90) ∨ (97 ≤ c ∧ c ≤ 122))) := by
  have h1 : patternCheckExits false s = true ↔ ∃ c ∈ s, ¬ isLetter c :=
    patternCheckExits_iff s
  have h2 : textCheck s = false ↔ ∃ c ∈ s, ¬ isLetter c := textCheck_false_iff s
  exact ⟨h1.trans h2.symm, h2, h1⟩

theorem checks_same_predicate_witness :
    patternCheckExits false (str "The1") = true ∧ textCheck (str "The1") = false ∧
    patternCheckExits false (str "a[b") = true ∧ textCheck (str "a[b") = false :=
  ⟨(checks_same_predicate (str "The1") (by decide)).2.2.mpr ⟨49, by decide, by decide⟩,
    (checks_same_predicate (str "The1") (by decide)).2.1.mpr ⟨49, by decide, by decide⟩,
    (checks_same_predicate (str "a[b") (by decide)).2.2.mpr ⟨91, by decide, by decide⟩,
    (checks_same_predicate (str "a[b") (by decide)).2.1.mpr ⟨91, by decide, by decide⟩⟩

/-- C15, as the code has it: for a pattern of letters of a length `m` in the range of
`int` the table is built without a fault and has 52 entries; when `m ≥ 1` every entry
is a positive integer, and for the empty pattern every entry is 0. -/
theorem shiftTable_positive (pattern : Str)
    (_hfit : (pattern.length : Int) ≤ 2147483647) (hp : onlyLetters pattern) :
    ∃ table, shiftTable pattern = .ok table ∧ table.length = 52 ∧
      (1 ≤ pattern.length → ∀ v ∈ table, 0 < v) ∧
      (pattern.length = 0 → ∀ v ∈ table, v = 0) := by
  obtain ⟨table, htab⟩ := shiftTable_ok hp
  have hspec := shiftTable_spec htab
  refine ⟨table, htab, hspec.1, fun hm v hv => ?_, fun h0 v hv => ?_⟩
  · obtain ⟨idx, hidx⟩ := List.getElem?_of_mem hv
    have := hspec.entry_bounds hm hidx
    omega
  · have hnil : pattern = [] := List.length_eq_zero.mp h0
    subst hnil
    have hinit : shiftTable ([] : Str) = .ok (initTable 0) := rfl
    rw [hinit] at htab
    cases htab
    exact List.eq_of_mem_replicate hv

theorem shiftTable_positive_witness :
    ∃ table, shiftTable (str "the") = .ok table ∧ table.length = 52 ∧
      (1 ≤ (str "the").length → ∀ v ∈ table, 0 < v) ∧
      ((str "the").length = 0 → ∀ v ∈ table, v = 0) :=
  shiftTable_positive (str "the") (by decide) (by decide)

/-- C15 fails for the empty pattern, which is a sequence of letters of length 0: its
shift table is built, and its entries are 0, not positive. -/
theorem shiftTable_empty_not_positive :
    onlyLetters ([] : Str) ∧
    ∃ table, shiftTable ([] : Str) = .ok table ∧ tableGet table 0 = .ok 0 ∧
      ¬ (∀ v ∈ table, 0 < v) := by
  refine ⟨by decide, initTable 0, rfl, by decide, ?_⟩
  intro h
  have := h 0 (by decide)
  omega

/-- C16: for a pattern of one symbol the filling loop makes no iteration and all 52
entries of the table are 1; in a text of letters, an execution of the body of the scan
loop on a character other than the pattern's moves the cursor by exactly 1.  The symbol
need not be a letter. -/
theorem single_symbol_table (c : Int) :
    ((((([c] : Str).length : Int) - 1).toNat = 0) ∧
      shiftTable [c] = fillLoop [c] 1 0) ∧
    shiftTable [c] = .ok (List.replicate 52 1) ∧
    (∀ (text : Str) (s : Nat) (d : Int), onlyLetters text → text[s]? = some d → d ≠ c →
      scanBody [c] text (List.replicate 52 1) 1 (s : Int) = .advance ((s : Int) + 1)) := by
  refine ⟨⟨rfl, rfl⟩, rfl, ?_⟩
  intro text s d ht hd hne
  have hchar : charAt text (s : Int) = .ok d := charAt_ofNat hd
  have hr := tableIndex_range (onlyLetters_getElem ht hd)
  have hget : tableGet (List.replicate 52 1) (tableIndex d) = .ok 1 := by
    apply tableGet_of_getElem hr.1
    rw [List.getElem?_replicate, if_pos (by omega)]
  have hp0 : charAt [c] ((1 : Int) - 1 - 0) = .ok c := rfl
  have ht0 : charAt text ((s : Int) - 0) = .ok d := by
    rw [Int.sub_zero]
    exact hchar
  have hcmp : compareLoop [c] text 1 (s : Int) ([c] : Str).length 0 = .ok 0 := by
    show compareLoop [c] text 1 (s : Int) 1 0 = .ok 0
    rw [compareLoop, if_pos (by omega), hp0, ht0]
    simp only [Ne.symm hne, if_false]
  have h01 : ¬ ((0 : Int) = 1) := by omega
  simp only [scanBody, hcmp, h01, if_false, hchar, hget]

theorem single_symbol_table_witness :
    shiftTable (str "a") = .ok (List.replicate 52 1) ∧
    scanBody (str "a") (str "banana") (List.replicate 52 1) 1 2 = .advance 3 :=
  ⟨(single_symbol_table 97).2.1,
    (single_symbol_table 97).2.2 (str "banana") 2 110 (by decide) (by decide) (by decide)⟩

/-! ## The empty pattern, index safety and the test flag -/

/-- C17: for the empty pattern and a text of letters of a length in the range of `int`
(the empty text included) `HorspoolStringMatching` returns `true`, and fuel for one
execution of the body of the scan loop is enough; that execution returns `true`
whatever the table is (an empty table included, so the table is not consulted), the
inner loop ends at `k = 0` with no execution of its body (so no character of the
pattern or of the text is read), and the scan loop executes its body once (so the
cursor is never moved). -/
theorem empty_pattern_true (text : Str) (isTest : Bool)
    (_hfit : (text.length : Int) ≤ 2147483647) (ht : onlyLetters text) :
    (HorspoolStringMatching [] text isTest).2 = .ok true ∧
    (HorspoolStringMatchingFuel 1 [] text isTest).2 = .ok true ∧
    (∀ table, scanBody [] text table 0 (-1) = .found) ∧
    compareLoop [] text 0 (-1) 0 0 = .ok 0 ∧
    (∀ table fuel, scanIterations [] text table 0 text.length (fuel + 1) (-1) = 1) := by
  have hres : ∀ fuel, (HorspoolStringMatchingFuel (fuel + 1) [] text isTest).2
      = .ok true := by
    intro fuel
    have htab : shiftTable ([] : Str) = .ok (initTable 0) := rfl
    simp only [HorspoolStringMatchingFuel, if_neg (textCheck_ne_false ht), htab]
    exact scanLoop_empty text (initTable 0) fuel
  have hbody : ∀ table, scanBody [] text table 0 (-1) = .found := by
    intro table
    simp [scanBody, compareLoop]
  refine ⟨hres text.length, hres 0, hbody, by simp [compareLoop], ?_⟩
  intro table fuel
  have hcond : (-1 : Int) ≤ (text.length : Int) - 1 := by omega
  rw [scanIterations, if_pos hcond, hbody table]

theorem empty_pattern_true_witness :
    (HorspoolStringMatching [] (str "abc") false).2 = .ok true ∧
    (HorspoolStringMatching [] [] true).2 = .ok true ∧
    scanBody [] (str "abc") [] 0 (-1) = .found :=
  ⟨(empty_pattern_true (str "abc") false (by decide) (by decide)).1,
    (empty_pattern_true [] true (by decide) (by decide)).1,
    (empty_pattern_true (str "abc") false (by decide) (by decide)).2.2.1 []⟩

theorem charAt_ok_iff (s : Str) (i : Int) :
    (∃ c, charAt s i = .ok c) ↔ 0 ≤ i ∧ i < s.length := by
  constructor
  · rintro ⟨c, h⟩
    obtain ⟨h0, h1⟩ := charAt_eq_ok h
    have := (List.getElem?_eq_some.mp h1).1
    omega
  · rintro ⟨h0, h1⟩
    exact ⟨_, charAt_of_getElem h0 (List.getElem?_eq_getElem (by omega))⟩

theorem tableGet_ok_iff (table : List Int) (idx : Int) :
    (∃ v, tableGet table idx = .ok v) ↔ 0 ≤ idx ∧ idx < table.length := by
  constructor
  · rintro ⟨v, h⟩
    obtain ⟨h0, h1⟩ := tableGet_eq_ok h
    have := (List.getElem?_eq_some.mp h1).1
    omega
  · rintro ⟨h0, h1⟩
    exact ⟨_, tableGet_of_getElem h0 (List.getElem?_eq_getElem (by omega))⟩

theorem tableSet_ok_iff (table : List Int) (idx v : Int) :
    (∃ table', tableSet table idx v = .ok table') ↔ 0 ≤ idx ∧ idx < table.length := by
  constructor
  · rintro ⟨t, h⟩
    obtain ⟨h0, h1, _⟩ := tableSet_eq_ok h
    omega
  · rintro ⟨h0, h1⟩
    have h0' : ¬ (idx < 0) := by omega
    have h1' : idx.toNat < table.length := by omega
    exact ⟨_, by rw [tableSet, if_neg h0', if_pos h1']⟩

/-- C18 (index safety): the reads of a string succeed exactly at the indices
`0..length-1` and the reads and writes of the table exactly at `0..length-1`, every
other access being a fault; for a pattern of length `m ≥ 1` and a text of length `n`,
both of letters only and with `m + n` in the range of `int`, the table is built
without a fault and has 52 entries, no execution of the body of the scan loop with
`m - 1 ≤ i ≤ n - 1` ends in a fault or moves the cursor out of the range of `int`, and
`HorspoolStringMatching` returns a boolean, so that no access it makes is out of
bounds. -/
theorem index_safety (pattern text : Str) (isTest : Bool) (hm : 1 ≤ pattern.length)
    (hfit : (pattern.length : Int) + text.length ≤ 2147483647)
    (hp : onlyLetters pattern) (ht : onlyLetters text) :
    (∀ (s : Str) (i : Int), (∃ c, charAt s i = .ok c) ↔ 0 ≤ i ∧ i < s.length) ∧
    (∀ (table : List Int) (idx : Int),
      (∃ v, tableGet table idx = .ok v) ↔ 0 ≤ idx ∧ idx < table.length) ∧
    (∀ (table : List Int) (idx v : Int),
      (∃ table', tableSet table idx v = .ok table') ↔ 0 ≤ idx ∧ idx < table.length) ∧
    (∃ table, shiftTable pattern = .ok table ∧ table.length = 52 ∧
      ∀ i : Int, (pattern.length : Int) - 1 ≤ i → i ≤ (text.length : Int) - 1 →
        (∀ f, scanBody pattern text table pattern.length i ≠ .fault f) ∧
        (∀ i', scanBody pattern text table pattern.length i = .advance i' →
          i' ≤ 2147483647)) ∧
    (∃ b, (HorspoolStringMatching pattern text isTest).2 = .ok b) := by
  obtain ⟨table, htab⟩ := shiftTable_ok hp
  have hspec := shiftTable_spec htab
  refine ⟨charAt_ok_iff, tableGet_ok_iff, tableSet_ok_iff,
    ⟨table, htab, hspec.1, ?_⟩, horspool_returns hp text isTest⟩
  intro i hlo hhi
  obtain ⟨s, rfl⟩ : ∃ s : Nat, i = (s : Int) + pattern.length - 1 :=
    ⟨(i - ((pattern.length : Int) - 1)).toNat, by omega⟩
  obtain ⟨c, d, _, _, _, hdm, hfound, hmove⟩ := scanBody_spec hm ht hspec s (by omega)
  by_cases hocc : occursAt pattern text s
  · rw [hfound hocc]
    refine ⟨?_, ?_⟩
    · intro f hf
      cases hf
    · intro i' hi'
      cases hi'
  · rw [hmove hocc]
    refine ⟨?_, ?_⟩
    · intro f hf
      cases hf
    · intro i' hi'
      cases hi'
      omega

theorem index_safety_witness :
    ∃ b, (HorspoolStringMatching (str "the") (str "feather") true).2 = .ok b :=
  (index_safety (str "the") (str "feather") true (by decide) (by decide) (by decide)
    (by decide)).2.2.2.2

theorem horspool_isTest (pattern text : Str) (fuel : Nat) :
    (HorspoolStringMatchingFuel fuel pattern text true).2
      = (HorspoolStringMatchingFuel fuel pattern text false).2 := by
  unfold HorspoolStringMatchingFuel
  split
  · rfl
  · split <;> rfl

theorem matchLoop_isTest (pattern : Str) :
    ∀ (texts matchingTexts : List Str),
      (matchLoop pattern true texts matchingTexts).2
        = (matchLoop pattern false texts matchingTexts).2 := by
  intro texts
  induction texts with
  | nil => intro acc; rfl
  | cons t rest ih =>
    intro acc
    have h := horspool_isTest pattern t (t.length + 1)
    rw [matchLoop, matchLoop]
    cases h1 : HorspoolStringMatching pattern t true with
    | mk o1 r1 =>
      cases h2 : HorspoolStringMatching pattern t false with
      | mk o2 r2 =>
        have hr : r1 = r2 := by
          have e1 : (HorspoolStringMatching pattern t true).2 = r1 := by rw [h1]
          have e2 : (HorspoolStringMatching pattern t false).2 = r2 := by rw [h2]
          rw [← e1, ← e2]
          exact h
        subst hr
        cases r1 with
        | fault f => rfl
        | ok found => exact ih _

/-- C19: the flag `isTest` changes what is printed only: for every pattern and text
`HorspoolStringMatching` returns the same with `isTest` set and not set, and so does
`matchPatternToTexts` for every list of texts; without the flag
`HorspoolStringMatching` prints nothing. -/
theorem isTest_only_prints (pattern text : Str) (allTexts : List Str) :
    (HorspoolStringMatching pattern text true).2
      = (HorspoolStringMatching pattern text false).2 ∧
    (matchPatternToTexts pattern allTexts true).2
      = (matchPatternToTexts pattern allTexts false).2 ∧
    (HorspoolStringMatching pattern text false).1 = [] := by
  refine ⟨horspool_isTest pattern text _, matchLoop_isTest pattern allTexts [], ?_⟩
  unfold HorspoolStringMatching HorspoolStringMatchingFuel
  split
  · rfl
  · split <;> rfl

theorem isTest_only_prints_witness :
    (HorspoolStringMatching (str "the") (str "feather") true).2
      = (HorspoolStringMatching (str "the") (str "feather") false).2 ∧
    (matchPatternToTexts (str "the") [str "other", str "hi5"] true).2
      = (matchPatternToTexts (str "the") [str "other", str "hi5"] false).2 :=
  ⟨(isTest_only_prints (str "the") (str "feather") []).1,
    (isTest_only_prints (str "the") [] [str "other", str "hi5"]).2.1⟩

end StringMatcher

open StringMatcher

